import Mathlib

/-!
# Verification of the ansible-inventory-manager analysis and cleanup engine

This development is a shallow embedding of the two Python modules
`src/modules/analyze_inventory.py` and `src/modules/clean_inventory.py`.

Modelling conventions:
* Python dictionaries are association lists `List (String × α)` with unique
  keys; dictionary assignment is `dictSet` (replace in place or append at the
  end), `defaultdict(list)` appending is `dictAppend`, and lookup is `dlookup`.
* A directory is a `List (String × FileContent)` pairing each file name with
  its content; `os.path.exists` on `dir/name` is `(dlookup dir name).isSome`.
* A YAML document is an association list of keys to opaque scalar values
  (`YVal`); values are only ever compared for equality, exactly as in the
  source.  A file's raw content is `FileContent`: it either parses to a
  document (`parsed (some d)`), parses to nothing (`parsed none`, the
  `yaml.safe_load(...) or {}` case), or fails to parse (`malformed`, the
  `yaml.YAMLError` case).
* The Python string primitives the source uses (`strip`, `split`,
  `startswith`, `endswith`, `lower`, `in`, slicing) are re-implemented
  structurally over the string's character list (`pyStrip`, `pyFirstTok`,
  `pySplitOn`, `pyStartsWith`, `pyEndsWith`, `pyLower`, `pyContains`), so
  that every definition computes by kernel reduction;
  `os.path.splitext(...)[0]` is `splitextStem` (including CPython's rule that
  leading dots of a base name never start an extension, so
  `splitext ".yml" = (".yml", "")`).
-/

/-- Opaque YAML scalar value.  The source only compares values with `!=`;
on this domain Lean equality agrees with Python equality. -/
inductive YVal where
  | yStr : String → YVal
  | yInt : Int → YVal
deriving DecidableEq

/-- Python `str(value)` for the values above, used only to build the
human-readable defect strings. -/
def YVal.pyStr : YVal → String
  | .yStr s => s
  | .yInt n => toString n

/-- A parsed YAML mapping: keys paired with opaque values. -/
abbrev Ydoc := List (String × YVal)

/-- Raw content of a file on disk, as far as the YAML loader can see it. -/
inductive FileContent where
  | parsed : Option Ydoc → FileContent
  | malformed : FileContent
deriving DecidableEq

/-- A directory: file names paired with raw contents. -/
abbrev Dir := List (String × FileContent)

/-- Python dictionary lookup `m[k]` / `m.get(k)` on an association list
(first matching key). -/
def dlookup {α : Type} : List (String × α) → String → Option α
  | [], _ => none
  | (k', v) :: rest, k => if k' = k then some v else dlookup rest k

/-- Python `k in m` for a dictionary. -/
def containsKey {α : Type} (m : List (String × α)) (k : String) : Bool :=
  (dlookup m k).isSome

/-- Python dictionary assignment `m[k] = v`: replace the value of an existing
key in place, otherwise append the new binding at the end. -/
def dictSet {α : Type} : List (String × α) → String → α → List (String × α)
  | [], k, v => [(k, v)]
  | (k', w) :: rest, k, v =>
    if k' = k then (k, v) :: rest else (k', w) :: dictSet rest k v

/-- Python `defaultdict(list)` append `m[k].append(v)`. -/
def dictAppend {α : Type} : List (String × List α) → String → α → List (String × List α)
  | [], k, v => [(k, [v])]
  | (k', l) :: rest, k, v =>
    if k' = k then (k', l ++ [v]) :: rest else (k', l) :: dictAppend rest k v

/-- Lookup in a `defaultdict(list)`: a missing key reads as the empty list. -/
def dlookupL {α : Type} (m : List (String × List α)) (k : String) : List α :=
  (dlookup m k).getD []

/-- Python's whitespace set for `str.strip()`/`str.split()` (ASCII). -/
def pyWS (c : Char) : Bool :=
  c = ' ' || c = '\t' || c = '\n' || c = '\r' || c = '\x0b' || c = '\x0c'

/-- Python `str.strip()`: drop leading and trailing whitespace. -/
def pyStrip (s : String) : String :=
  String.mk (((s.data.dropWhile pyWS).reverse.dropWhile pyWS).reverse)

/-- Python falsiness of a string (`if not line`). -/
def pyIsEmpty (s : String) : Bool := s.data.isEmpty

/-- Python `str.startswith`. -/
def pyStartsWith (s pre : String) : Bool := pre.data.isPrefixOf s.data

/-- Python `str.endswith`. -/
def pyEndsWith (s suf : String) : Bool := suf.data.reverse.isPrefixOf s.data.reverse

/-- Python `c in s` for a single character. -/
def pyContains (s : String) (c : Char) : Bool := s.data.contains c

/-- Python `s.split()[0]`: the first whitespace-delimited token.  (On
all-whitespace input Python would raise `IndexError`; both call sites apply
it only to stripped non-blank lines, where this returns that token.) -/
def pyFirstTok (s : String) : String :=
  String.mk ((s.data.dropWhile pyWS).takeWhile (fun c => !(pyWS c)))

/-- Python `s.split(sep)` on character lists, structured with fuel; the
caller passes the list's length, which suffices because the non-empty
separator consumes at least one character at each split. -/
def pySplitOnCh (sep : List Char) : Nat → List Char → List (List Char)
  | _, [] => [[]]
  | 0, l => [l]
  | fuel + 1, c :: cs =>
    if sep.isPrefixOf (c :: cs) then
      [] :: pySplitOnCh sep fuel ((c :: cs).drop sep.length)
    else
      match pySplitOnCh sep fuel cs with
      | [] => [[c]]
      | w :: ws => (c :: w) :: ws

/-- Python `s.split(sep)` for a non-empty separator. -/
def pySplitOn (s sep : String) : List String :=
  (pySplitOnCh sep.data s.data.length s.data).map String.mk

/-- Python `str.lower` on one character (ASCII range, which covers the
variable names the source manipulates). -/
def pyLowerChar (c : Char) : Char :=
  if 65 ≤ c.toNat ∧ c.toNat ≤ 90 then Char.ofNat (c.toNat + 32) else c

/-- Python `str.lower`. -/
def pyLower (s : String) : String := String.mk (s.data.map pyLowerChar)

/-- `os.path.splitext(s)[0]` for a bare file name (no directory separators):
the part before the last dot, except that a name whose characters before its
last dot are all dots (such as `".yml"`) has no extension and is its own stem.
This is CPython's documented behaviour (`splitext(".cshrc") = (".cshrc", "")`). -/
def splitextStem (s : String) : String :=
  match s.toList.reverse.dropWhile (fun c => !(c = '.')) with
  | [] => s
  | _ :: before =>
    if before.any (fun c => !(c = '.')) then String.mk before.reverse else s

/-- `file_name.endswith('.yaml') or file_name.endswith('.yml')`. -/
def endsYY (f : String) : Bool :=
  pyEndsWith f ".yaml" || pyEndsWith f ".yml"

/-- The probe used by the parser and the missing-file re-check:
`os.path.exists(host_vars/<h>.yaml) or os.path.exists(host_vars/<h>.yml)`. -/
def existsHostFile (hv : Dir) (h : String) : Bool :=
  (dlookup hv (h ++ ".yaml")).isSome || (dlookup hv (h ++ ".yml")).isSome

/-! ## `analyze_inventory.py` -/

/-- `load_yaml_file`: a parse failure is reported and yields `{}`; an empty
document (`safe_load` returning `None`) also yields `{}`. -/
def load_yaml_file : FileContent → Ydoc
  | .parsed (some d) => d
  | .parsed none => []
  | .malformed => []

/-- `load_all_vars`: every file whose name ends in `.yaml`/`.yml` is loaded,
in directory order. -/
def load_all_vars (dir : Dir) : List (String × Ydoc) :=
  (dir.filter (fun p => endsYY p.1)).map (fun p => (p.1, load_yaml_file p.2))

/-- Innermost loop of `check_duplicate_vars`: `for var in group_data: if var
in host_data: duplicates[var].append((group_file, host_name))`. -/
def dupStep (gf hn : String) (hd : Ydoc)
    (acc : List (String × List (String × String))) (p : String × YVal) :
    List (String × List (String × String)) :=
  if containsKey hd p.1 then dictAppend acc p.1 (gf, hn) else acc

/-- `check_duplicate_vars(group_vars, host_vars)`: the full Cartesian product
of group files against host files, with no membership scoping. -/
def check_duplicate_vars (gv hv : List (String × Ydoc)) :
    List (String × List (String × String)) :=
  gv.foldl (fun acc g =>
    hv.foldl (fun acc2 h =>
      g.2.foldl (dupStep g.1 (splitextStem h.1) h.2) acc2) acc) []

/-- One recorded inconsistency, the dict literal appended by
`check_inconsistent_values`. -/
structure Conflict where
  group_file : String
  host_file : String
  group_value : YVal
  host_value : YVal
deriving DecidableEq

/-- Innermost loop of `check_inconsistent_values`: `for var, group_value in
group_data.items(): if var in host_data and host_data[var] != group_value:
inconsistencies[var].append({...})`. -/
def inconsStep (gf hn : String) (hd : Ydoc)
    (acc : List (String × List Conflict)) (p : String × YVal) :
    List (String × List Conflict) :=
  match dlookup hd p.1 with
  | some hval =>
    if hval = p.2 then acc else dictAppend acc p.1 ⟨gf, hn, p.2, hval⟩
  | none => acc

/-- `check_inconsistent_values(group_vars, host_vars)`: same all-pairs loop,
recording only keys whose two values differ. -/
def check_inconsistent_values (gv hv : List (String × Ydoc)) :
    List (String × List Conflict) :=
  gv.foldl (fun acc g =>
    hv.foldl (fun acc2 h =>
      g.2.foldl (inconsStep g.1 (splitextStem h.1) h.2) acc2) acc) []

/-- `find_duplicates(groups)`: its body applies `Counter`, which is never
imported by the module, so the first loop iteration raises `NameError`;
only the empty dictionary avoids entering the loop and returns normally
(the comprehension over the empty `duplicated_hosts` yields `{}`). -/
def find_duplicates (groups : List (String × List String)) :
    Except String (List (String × List String)) :=
  match groups with
  | [] => Except.ok []
  | _ :: _ => Except.error "NameError: name Counter is not defined"

/-- One line of `parse_hosts_ini`'s scan.  State: the active group
(`current_group`, `none` before any header, and an empty group name is falsy
in Python so hosts under it are skipped) together with the `hosts` and
`groups` dictionaries. -/
structure ParseOut where
  hosts : List (String × List String)
  groups : List (String × List String)
deriving DecidableEq

/-- Processing of a single raw line by `parse_hosts_ini`. -/
def parseLine (hv : Dir) (st : Option String × ParseOut) (rawLine : String) :
    Option String × ParseOut :=
  let line := pyStrip rawLine
  if pyIsEmpty line || pyStartsWith line "#" then st
  else if pyStartsWith line "[" && pyEndsWith line "]" then
    let g := pyStrip (String.mk ((line.data.drop 1).dropLast))
    (some g, { st.2 with groups := dictSet st.2.groups g [] })
  else
    match st.1 with
    | none => st
    | some g =>
      if g = "" then st
      else
        let host_name := if pyContains line ' ' then pyStrip (pyFirstTok line) else line
        if existsHostFile hv host_name then
          (some g, { hosts := dictAppend st.2.hosts host_name g,
                     groups := dictAppend st.2.groups g host_name })
        else (some g, st.2)

/-- `parse_hosts_ini`: scan the membership file's lines in order, admitting a
host only when a backing `<host>.yaml`/`<host>.yml` file exists in
`host_vars`. -/
def parse_hosts_ini (lines : List String) (hv : Dir) : ParseOut :=
  (lines.foldl (parseLine hv) (none, ⟨[], []⟩)).2

/-- The whole filesystem state `analyze_inventory` reads: the raw lines of
the `hosts` membership file and the two variable directories. -/
structure InvState where
  hostsLines : List String
  groupVarsDir : Dir
  hostVarsDir : Dir
deriving DecidableEq

def parsedHosts (inv : InvState) : List (String × List String) :=
  (parse_hosts_ini inv.hostsLines inv.hostVarsDir).hosts

def parsedGroups (inv : InvState) : List (String × List String) :=
  (parse_hosts_ini inv.hostsLines inv.hostVarsDir).groups

/-- The group-list recorded for a host by the parser (empty for unknown
hosts). -/
def hostGroups (inv : InvState) (h : String) : List String :=
  dlookupL (parsedHosts inv) h

def hostKeys (inv : InvState) : List String := (parsedHosts inv).map Prod.fst

def dupVarsOf (inv : InvState) : List (String × List (String × String)) :=
  check_duplicate_vars (load_all_vars inv.groupVarsDir) (load_all_vars inv.hostVarsDir)

def inconsOf (inv : InvState) : List (String × List Conflict) :=
  check_inconsistent_values (load_all_vars inv.groupVarsDir) (load_all_vars inv.hostVarsDir)

/-- `duplicated_hosts = {host: groups for host, groups in hosts.items() if
len(groups['groups']) > 1}`. -/
def duplicatedHosts (inv : InvState) : List (String × List String) :=
  (parsedHosts inv).filter (fun p => 1 < p.2.length)

/-- The `missing_files` re-check inside `analyze_inventory`. -/
def missingFiles (inv : InvState) : List String :=
  (hostKeys inv).filter (fun h => !(existsHostFile inv.hostVarsDir h))

/-- The `orphaned_files` scan inside `analyze_inventory`: stems of listed
`.yaml`/`.yml` files that are not parsed hosts, in directory order. -/
def orphanedFiles (inv : InvState) : List String :=
  (((inv.hostVarsDir.map Prod.fst).filter endsYY).map splitextStem).filter
    (fun n => !((hostKeys inv).contains n))

/-- The per-host defect record (one row of `analysis_results`); field names
follow the CSV columns `Groups`, `Duplicated Variables`, `Inconsistent
Variables`, `Duplicated Host`, `Missing File in host_vars`,
`Orphaned Host Var`. -/
structure HostRec where
  groups : String
  dupVars : String
  inconsVars : String
  dupHost : String
  missingFile : String
  orphaned : String
deriving DecidableEq

/-- The `duplicated_vars` display strings collected for one host:
`f"{var} (in {group_file} and {host_file})"` for every global occurrence
whose recorded host name equals this host. -/
def mkDupStrings (dups : List (String × List (String × String))) (h : String) :
    List String :=
  dups.foldl (fun acc p =>
    acc ++ (p.2.filter (fun q => q.2 = h)).map
      (fun q => p.1 ++ " (in " ++ q.1 ++ " and " ++ q.2 ++ ")")) []

/-- The `inconsistent_vars` display strings collected for one host. -/
def mkInconsStrings (incons : List (String × List Conflict)) (h : String) :
    List String :=
  incons.foldl (fun acc p =>
    acc ++ (p.2.filter (fun c => c.host_file = h)).map
      (fun c => p.1 ++ " (" ++ c.group_file ++ " value = " ++ c.group_value.pyStr
        ++ ", " ++ h ++ " value = " ++ c.host_value.pyStr ++ ")")) []

/-- The record built for a parsed host `h` with group list `grps`. -/
def hostRecordOf (inv : InvState) (h : String) (grps : List String) : HostRec :=
  let duplicated_vars := mkDupStrings (dupVarsOf inv) h
  let inconsistent_vars := mkInconsStrings (inconsOf inv) h
  { groups := String.intercalate ", " grps
  , dupVars :=
      if duplicated_vars.isEmpty then "No duplicated variables"
      else String.intercalate "; " duplicated_vars
  , inconsVars :=
      if inconsistent_vars.isEmpty then "No inconsistent variables"
      else String.intercalate "; " inconsistent_vars
  , dupHost :=
      if containsKey (duplicatedHosts inv) h then
        String.intercalate ", " (dlookupL (duplicatedHosts inv) h)
      else "No duplication in groups"
  , missingFile := if h ∈ missingFiles inv then "Yes" else "No"
  , orphaned := "No" }

/-- The synthetic record written for every orphaned variable file. -/
def orphanRecord : HostRec :=
  { groups := "No group assigned"
  , dupVars := "N/A"
  , inconsVars := "N/A"
  , dupHost := "No duplication in groups"
  , missingFile := "No"
  , orphaned := "Yes" }

/-- `analyze_inventory`: build one record per parsed host, then one per
orphaned variable-file stem. -/
def analyze_inventory (inv : InvState) : List (String × HostRec) :=
  let base := (parsedHosts inv).foldl
    (fun acc p => dictSet acc p.1 (hostRecordOf inv p.1 p.2)) []
  (orphanedFiles inv).foldl (fun acc o => dictSet acc o orphanRecord) base

/-! ## `clean_inventory.py` -/

/-- The keep/drop decision of `clean_hosts` for one raw line of the
membership file. -/
def keepLine (results : List (String × HostRec)) (raw : String) : Bool :=
  let s := pyStrip raw
  if pyIsEmpty s || pyStartsWith s "#" || pyStartsWith s "[" then true
  else
    let host_name := pyFirstTok s
    match dlookup results host_name with
    | none => true
    | some rec =>
      if ¬ (rec.dupHost = "No duplication in groups") then false
      else if rec.missingFile = "Yes" then false
      else true

/-- `clean_hosts`: rewrite the membership file keeping exactly the lines
`keepLine` accepts, each written back verbatim. -/
def clean_hosts (lines : List String) (results : List (String × HostRec)) :
    List String :=
  lines.filter (keepLine results)

/-- The flagged variable names extracted from one defect field:
`[var.split(" (")[0].lower() for var in field.split("; ")]`, guarded by the
field's absence sentinel. -/
def namedVars (field sentinel : String) : List String :=
  if field = sentinel then []
  else (pySplitOn field "; ").map (fun v => pyLower ((pySplitOn v " (").headD ""))

/-- All variable names flagged for removal by a host's record: the
duplicated-variable names followed by the inconsistent-variable names. -/
def flaggedVars (rec : HostRec) : List String :=
  namedVars rec.dupVars "No duplicated variables"
    ++ namedVars rec.inconsVars "No inconsistent variables"

/-- `host_data_ci = {key.lower(): key for key in host_data}` (later keys
overwrite earlier ones on a case-insensitive collision). -/
def buildCI (d : Ydoc) : List (String × String) :=
  d.foldl (fun m p => dictSet m (pyLower p.1) p.1) []

/-- One deletion attempt: look the lowercased name up in the case-insensitive
map, and `del` the resulting original key if it is truthy (non-empty) and
still present. -/
def delVar (ci : List (String × String)) (doc : Ydoc) (v : String) : Ydoc :=
  match dlookup ci v with
  | some orig =>
    if ¬ (orig = "") ∧ containsKey doc orig = true then
      doc.filter (fun p => ¬ (p.1 = orig))
    else doc
  | none => doc

/-- The pure per-document part of `clean_host_vars`: delete every flagged
variable from the loaded document. -/
def cleanDoc (rec : HostRec) (d : Ydoc) : Ydoc :=
  (flaggedVars rec).foldl (delVar (buildCI d)) d

/-- `save_yaml_file` then a later reload: the written file parses back to the
dumped document. -/
def writeDoc (d : Ydoc) : FileContent := FileContent.parsed (some d)

/-- Replace the content of file `f` in a directory. -/
def updateFile (dir : Dir) (f : String) (c : FileContent) : Dir :=
  dir.map (fun p => if p.1 = f then (p.1, c) else p)

/-- `clean_host_vars`: for every host in the defect record, try exactly
`<host>.yml`; a missing file skips the host (the `FileNotFoundError` branch),
otherwise the cleaned document is written back in place. -/
def clean_host_vars (hv : Dir) (results : List (String × HostRec)) : Dir :=
  results.foldl (fun dir pr =>
    match dlookup dir (pr.1 ++ ".yml") with
    | none => dir
    | some c =>
      updateFile dir (pr.1 ++ ".yml") (writeDoc (cleanDoc pr.2 (load_yaml_file c)))) hv

/-- `clean_inventory`: membership rewrite followed by variable-file
rewrite. -/
def clean_inventory (st : List String × Dir) (results : List (String × HostRec)) :
    List String × Dir :=
  (clean_hosts st.1 results, clean_host_vars st.2 results)

/-! ## Property-side definitions used by the claim statements -/

/-- Keys of a dictionary. -/
def keysOf {α : Type} (m : List (String × α)) : List String := m.map Prod.fst

/-- A document whose keys are pairwise distinct after lowercasing (so the
case-insensitive lookup table of `clean_host_vars` is collision-free). -/
def distinctLower (d : Ydoc) : Prop :=
  (d.map (fun p => pyLower p.1)).Nodup

instance (d : Ydoc) : Decidable (distinctLower d) :=
  List.nodupDecidable _

/-- Keep-predicate relative to a set `S` of lowercased flagged names: a key
survives iff it is empty (Python truthiness skips it) or its lowercasing is
not in `S`. -/
def keepS (S : List String) (k : String) : Bool :=
  decide (k = "" ∨ pyLower k ∉ S)

/-- The keep-predicate the cleanup provably implements on collision-free
documents: a key survives iff it is empty (Python truthiness skips it) or its
lowercasing is not a flagged variable name. -/
def keepKey (rec : HostRec) (k : String) : Bool :=
  keepS (flaggedVars rec) k

/-- Sequential application of several records' cleanups to one document. -/
def applyRecs (rs : List HostRec) (d : Ydoc) : Ydoc :=
  rs.foldl (fun d r => cleanDoc r d) d

/-- The records of the defect dictionary that target file `f` (those hosts
`h` with `h ++ ".yml" = f`), in processing order. -/
def recsFor (results : List (String × HostRec)) (f : String) : List HostRec :=
  (results.filter (fun pr => pr.1 ++ ".yml" = f)).map Prod.snd

/-- Conjunction of the keep-predicates of several records. -/
def allKeep (rs : List HostRec) (k : String) : Bool :=
  rs.all (fun r => keepKey r k)

/-- The content file `f` ends up with after `clean_host_vars` processes the
whole defect record, expressed per file. -/
def cleanChain (results : List (String × HostRec)) (f : String) (c : FileContent) :
    FileContent :=
  results.foldl (fun c pr =>
    if pr.1 ++ ".yml" = f then writeDoc (cleanDoc pr.2 (load_yaml_file c)) else c) c

/-- A raw membership line that `clean_hosts` passes through unchanged:
blank, comment, or section header after stripping. -/
def isPassRaw (raw : String) : Bool :=
  pyIsEmpty (pyStrip raw) || pyStartsWith (pyStrip raw) "#" || pyStartsWith (pyStrip raw) "["

/-- The drop condition of the spec: the defect record for the line's first
whitespace-delimited token has a non-empty (non-sentinel) `Duplicated Host`
field or `Missing File in host_vars` equal to `"Yes"`. -/
def dropCondition (results : List (String × HostRec)) (raw : String) : Prop :=
  ∃ rec, dlookup results (pyFirstTok (pyStrip raw)) = some rec ∧
    (¬ rec.dupHost = "No duplication in groups" ∨ rec.missingFile = "Yes")

/-! ## Concrete inventories and records used as witnesses -/

/-- Scenario A of the spec: `[web]` with `web` listed twice and
`host_vars/web.yml` present. -/
def invA : InvState :=
  ⟨["[web]\n", "web\n", "web\n"], [], [("web.yml", FileContent.parsed (some []))]⟩

/-- The record `analyze_inventory` builds for `web` in scenario A. -/
def recWebA : HostRec :=
  ⟨"web, web", "No duplicated variables", "No inconsistent variables",
    "web, web", "No", "No"⟩

/-- A membership file declaring host `.yml` whose only candidate backing
files would be `.yml.yaml` and `.yml.yml`, absent — yet a file literally
named `.yml` exists, whose `splitext` stem is `.yml` itself. -/
def invCE : InvState :=
  ⟨["[db]", ".yml"], [], [(".yml", FileContent.parsed (some []))]⟩

/-- A membership file declaring `phantom` with an empty `host_vars`. -/
def invD : InvState := ⟨["[db]", "phantom"], [], []⟩

/-- An orphaned variable file `ghost.yml` with no membership entry. -/
def invC : InvState := ⟨["[web]"], [], [("ghost.yml", FileContent.parsed (some []))]⟩

/-- A defect record flagging the duplicated variable `port`. -/
def recColl : HostRec :=
  ⟨"g", "port (in g.yml and h)", "No inconsistent variables",
    "No duplication in groups", "No", "No"⟩

/-- A record whose `Duplicated Host` field is non-sentinel. -/
def recDrop : HostRec :=
  ⟨"g, g", "No duplicated variables", "No inconsistent variables", "g, g", "No", "No"⟩

/-- A host document with two keys that collide case-insensitively. -/
def docColl : Ydoc := [("Port", YVal.yInt 1), ("port", YVal.yInt 2)]

/-- Inventory state (membership lines, host_vars) holding `docColl`. -/
def stColl : List String × Dir := ([], [("h.yml", FileContent.parsed (some docColl))])

/-- A collision-free host_vars directory. -/
def hv0 : Dir := [("h.yml", FileContent.parsed (some [("a", YVal.yInt 1)]))]

/-- A host_vars directory containing only `x.yaml` (no `.yml` file at all). -/
def hvW : Dir := [("x.yaml", FileContent.parsed (some [("a", YVal.yInt 1)]))]

/-- A directory with one malformed variable file. -/
def dirM : Dir := [("bad.yml", FileContent.malformed)]

/-! ## Basic dictionary lemmas -/

theorem dlookup_dictSet {α : Type} (m : List (String × α)) (k q : String) (v : α) :
    dlookup (dictSet m k v) q = if k = q then some v else dlookup m q := by
  induction m with
  | nil => simp [dictSet, dlookup]
  | cons p rest ih =>
    obtain ⟨k', w⟩ := p
    by_cases hk : k' = k
    · subst hk
      simp only [dictSet, if_pos rfl, dlookup]
      by_cases hq : k' = q
      · subst hq; simp [dlookup]
      · simp [dlookup, hq, fun h : k' = q => hq h]
    · simp only [dictSet, if_neg hk, dlookup]
      by_cases hq : k' = q
      · subst hq
        have : ¬ k = k' := fun h => hk h.symm
        simp [dlookup, this]
      · simp [dlookup, hq, ih]

theorem dlookup_dictAppend {α : Type} (m : List (String × List α)) (k q : String) (v : α) :
    dlookup (dictAppend m k v) q =
      if k = q then some (dlookupL m k ++ [v]) else dlookup m q := by
  induction m with
  | nil => simp [dictAppend, dlookup, dlookupL]
  | cons p rest ih =>
    obtain ⟨k', l⟩ := p
    by_cases hk : k' = k
    · subst hk
      by_cases hq : k' = q
      · subst hq
        simp [dictAppend, dlookup, dlookupL]
      · simp [dictAppend, dlookup, dlookupL, hq]
    · by_cases hq : k' = q
      · subst hq
        have hkq : ¬ k = k' := fun h => hk h.symm
        simp [dictAppend, dlookup, dlookupL, hk, hkq]
      · have hL : dlookupL ((k', l) :: rest) k = dlookupL rest k := by
          simp [dlookupL, dlookup, hk]
        simp [dictAppend, dlookup, dlookupL, hk, hq, ih, hL]

theorem dlookup_eq_none_iff {α : Type} (m : List (String × α)) (k : String) :
    dlookup m k = none ↔ k ∉ keysOf m := by
  induction m with
  | nil => simp [dlookup, keysOf]
  | cons p rest ih =>
    obtain ⟨k', v⟩ := p
    by_cases hq : k' = k
    · subst hq; simp [dlookup, keysOf]
    · rw [show keysOf ((k', v) :: rest) = k' :: keysOf rest from rfl, List.mem_cons]
      simp only [dlookup, if_neg hq, ih]
      have hk2 : ¬ k = k' := fun h => hq h.symm
      tauto

theorem containsKey_iff_mem_keys {α : Type} (m : List (String × α)) (k : String) :
    containsKey m k = true ↔ k ∈ keysOf m := by
  rw [containsKey, Option.isSome_iff_ne_none]
  rw [ne_eq, dlookup_eq_none_iff]
  tauto

theorem dlookup_some_mem {α : Type} {m : List (String × α)} {k : String} {v : α}
    (h : dlookup m k = some v) : (k, v) ∈ m := by
  induction m with
  | nil => simp [dlookup] at h
  | cons p rest ih =>
    obtain ⟨k', w⟩ := p
    by_cases hq : k' = k
    · subst hq
      simp [dlookup] at h
      simp [h]
    · simp only [dlookup, if_neg hq] at h
      exact List.mem_cons_of_mem _ (ih h)

theorem mem_dlookup_of_nodup {α : Type} {m : List (String × α)} {k : String} {v : α}
    (hnd : (keysOf m).Nodup) (h : (k, v) ∈ m) : dlookup m k = some v := by
  induction m with
  | nil => simp at h
  | cons p rest ih =>
    obtain ⟨k', w⟩ := p
    rw [show keysOf ((k', w) :: rest) = k' :: keysOf rest from rfl,
      List.nodup_cons] at hnd
    rcases List.mem_cons.mp h with h1 | h2
    · obtain ⟨hk, hv⟩ := Prod.mk.injEq .. ▸ h1
      subst hk; subst hv
      simp [dlookup]
    · by_cases hq : k' = k
      · subst hq
        exact absurd (List.mem_map_of_mem Prod.fst h2) hnd.1
      · simp only [dlookup, if_neg hq]
        exact ih hnd.2 h2

theorem keysOf_dictSet {α : Type} (m : List (String × α)) (k : String) (v : α) (q : String) :
    q ∈ keysOf (dictSet m k v) ↔ q = k ∨ q ∈ keysOf m := by
  induction m with
  | nil => simp [dictSet, keysOf, eq_comm]
  | cons p rest ih =>
    obtain ⟨k', w⟩ := p
    by_cases hk : k' = k
    · subst hk
      simp [dictSet, keysOf, eq_comm]
    · simp only [dictSet, if_neg hk]
      rw [show keysOf ((k', w) :: dictSet rest k v) = k' :: keysOf (dictSet rest k v) from rfl,
        show keysOf ((k', w) :: rest) = k' :: keysOf rest from rfl,
        List.mem_cons, List.mem_cons, ih]
      tauto

theorem nodup_keys_dictSet {α : Type} (m : List (String × α)) (k : String) (v : α)
    (hnd : (keysOf m).Nodup) : (keysOf (dictSet m k v)).Nodup := by
  induction m with
  | nil => simp [dictSet, keysOf]
  | cons p rest ih =>
    obtain ⟨k', w⟩ := p
    rw [show keysOf ((k', w) :: rest) = k' :: keysOf rest from rfl, List.nodup_cons] at hnd
    by_cases hk : k' = k
    · subst hk
      rw [show dictSet ((k', w) :: rest) k' v = (k', v) :: rest by simp [dictSet]]
      rw [show keysOf ((k', v) :: rest) = k' :: keysOf rest from rfl, List.nodup_cons]
      exact hnd
    · rw [show dictSet ((k', w) :: rest) k v = (k', w) :: dictSet rest k v by simp [dictSet, hk]]
      rw [show keysOf ((k', w) :: dictSet rest k v) = k' :: keysOf (dictSet rest k v) from rfl,
        List.nodup_cons]
      refine ⟨fun hmem => ?_, ih hnd.2⟩
      rcases (keysOf_dictSet rest k v k').mp hmem with h1 | h2
      · exact hk h1
      · exact hnd.1 h2

theorem keysOf_dictAppend {α : Type} (m : List (String × List α)) (k : String) (v : α)
    (q : String) : q ∈ keysOf (dictAppend m k v) ↔ q = k ∨ q ∈ keysOf m := by
  induction m with
  | nil => simp [dictAppend, keysOf, eq_comm]
  | cons p rest ih =>
    obtain ⟨k', l⟩ := p
    by_cases hk : k' = k
    · subst hk
      simp [dictAppend, keysOf, eq_comm]
    · rw [show dictAppend ((k', l) :: rest) k v = (k', l) :: dictAppend rest k v by
        simp [dictAppend, hk]]
      rw [show keysOf ((k', l) :: dictAppend rest k v) = k' :: keysOf (dictAppend rest k v)
        from rfl, show keysOf ((k', l) :: rest) = k' :: keysOf rest from rfl,
        List.mem_cons, List.mem_cons, ih]
      tauto

theorem nodup_keys_dictAppend {α : Type} (m : List (String × List α)) (k : String) (v : α)
    (hnd : (keysOf m).Nodup) : (keysOf (dictAppend m k v)).Nodup := by
  induction m with
  | nil => simp [dictAppend, keysOf]
  | cons p rest ih =>
    obtain ⟨k', l⟩ := p
    rw [show keysOf ((k', l) :: rest) = k' :: keysOf rest from rfl, List.nodup_cons] at hnd
    by_cases hk : k' = k
    · subst hk
      rw [show dictAppend ((k', l) :: rest) k' v = (k', l ++ [v]) :: rest by simp [dictAppend]]
      rw [show keysOf ((k', l ++ [v]) :: rest) = k' :: keysOf rest from rfl, List.nodup_cons]
      exact hnd
    · rw [show dictAppend ((k', l) :: rest) k v = (k', l) :: dictAppend rest k v by
        simp [dictAppend, hk]]
      rw [show keysOf ((k', l) :: dictAppend rest k v) = k' :: keysOf (dictAppend rest k v)
        from rfl, List.nodup_cons]
      refine ⟨fun hmem => ?_, ih hnd.2⟩
      rcases (keysOf_dictAppend rest k v k').mp hmem with h1 | h2
      · exact hk h1
      · exact hnd.1 h2

theorem dlookup_filter {α : Type} (m : List (String × α)) (q : (String × α) → Bool)
    (k : String) (hnd : (keysOf m).Nodup) :
    dlookup (m.filter q) k =
      match dlookup m k with
      | some v => if q (k, v) then some v else none
      | none => none := by
  induction m with
  | nil => simp [dlookup]
  | cons p rest ih =>
    obtain ⟨k', v⟩ := p
    rw [show keysOf ((k', v) :: rest) = k' :: keysOf rest from rfl, List.nodup_cons] at hnd
    rw [List.filter_cons]
    by_cases hq : k' = k
    · subst hq
      have hnone : dlookup (rest.filter q) k' = none := by
        rw [dlookup_eq_none_iff]
        intro hmem
        apply hnd.1
        have hsub : keysOf (rest.filter q) ⊆ keysOf rest := by
          intro x hx
          simp only [keysOf, List.mem_map] at hx ⊢
          obtain ⟨pp, hpp, hpx⟩ := hx
          exact ⟨pp, (List.mem_filter.mp hpp).1, hpx⟩
        exact hsub hmem
      by_cases hqv : q (k', v) = true
      · rw [if_pos hqv]
        simp [dlookup, hqv]
      · rw [if_neg hqv, hnone]
        simp [dlookup, hqv]
    · by_cases hqv : q (k', v) = true
      · rw [if_pos hqv]
        simp only [dlookup, if_neg hq]
        exact ih hnd.2
      · rw [if_neg hqv]
        simp only [dlookup, if_neg hq]
        exact ih hnd.2

/-! ## Lemmas about the report-building folds -/

theorem dlookup_foldl_dictSet_notkey {α β : Type} (l : List (String × β))
    (f : String × β → α) (acc : List (String × α)) (h : String)
    (hn : ∀ p ∈ l, ¬ p.1 = h) :
    dlookup (l.foldl (fun a p => dictSet a p.1 (f p)) acc) h = dlookup acc h := by
  induction l generalizing acc with
  | nil => rfl
  | cons p rest ih =>
    rw [List.foldl_cons]
    rw [ih _ (fun q hq => hn q (List.mem_cons_of_mem _ hq))]
    rw [dlookup_dictSet]
    exact if_neg (hn p (List.mem_cons_self _ _))

theorem dlookup_foldl_dictSet_key {α β : Type} (l : List (String × β))
    (f : String × β → α) (acc : List (String × α)) (h : String) (b : β)
    (hnd : (keysOf l).Nodup) (hmem : (h, b) ∈ l) :
    dlookup (l.foldl (fun a p => dictSet a p.1 (f p)) acc) h = some (f (h, b)) := by
  induction l generalizing acc with
  | nil => simp at hmem
  | cons p rest ih =>
    rw [show keysOf (p :: rest) = p.1 :: keysOf rest from rfl, List.nodup_cons] at hnd
    rw [List.foldl_cons]
    rcases List.mem_cons.mp hmem with h1 | h2
    · subst h1
      have hnotin : ∀ q ∈ rest, ¬ q.1 = h := by
        intro q hq hEq
        have hq2 : q.1 ∈ keysOf rest := List.mem_map_of_mem Prod.fst hq
        rw [hEq] at hq2
        exact hnd.1 hq2
      rw [dlookup_foldl_dictSet_notkey _ _ _ _ hnotin]
      rw [dlookup_dictSet]
      simp
    · exact ih _ hnd.2 h2

theorem dlookup_foldl_dictSet_const {α : Type} (os : List String) (r : α)
    (acc : List (String × α)) (h : String) :
    dlookup (os.foldl (fun a o => dictSet a o r) acc) h =
      if h ∈ os then some r else dlookup acc h := by
  induction os generalizing acc with
  | nil => simp
  | cons o rest ih =>
    rw [List.foldl_cons, ih]
    by_cases hm : h ∈ rest
    · simp [hm]
    · by_cases ho : h = o
      · subst ho
        simp [hm, dlookup_dictSet]
      · have ho2 : ¬ o = h := fun hEq => ho hEq.symm
        simp [hm, ho, ho2, dlookup_dictSet]

theorem nodup_keys_foldl_dictSet {α β : Type} (l : List (String × β))
    (f : String × β → α) (acc : List (String × α)) (hnd : (keysOf acc).Nodup) :
    (keysOf (l.foldl (fun a p => dictSet a p.1 (f p)) acc)).Nodup := by
  induction l generalizing acc with
  | nil => exact hnd
  | cons p rest ih => exact ih _ (nodup_keys_dictSet _ _ _ hnd)

theorem nodup_keys_foldl_dictSet_const {α : Type} (os : List String) (r : α)
    (acc : List (String × α)) (hnd : (keysOf acc).Nodup) :
    (keysOf (os.foldl (fun a o => dictSet a o r) acc)).Nodup := by
  induction os generalizing acc with
  | nil => exact hnd
  | cons o rest ih => exact ih _ (nodup_keys_dictSet _ _ _ hnd)

/-! ## Parser invariants -/

/-- Invariant of `parse_hosts_ini`'s scanning state: both dictionaries have
unique keys, and every admitted host (as `hosts` key or group member) passed
the backing-file probe. -/
def ParseInvariant (hv : Dir) (st : Option String × ParseOut) : Prop :=
  (keysOf st.2.hosts).Nodup ∧ (keysOf st.2.groups).Nodup ∧
  (∀ h, h ∈ keysOf st.2.hosts → existsHostFile hv h = true) ∧
  (∀ g l, dlookup st.2.groups g = some l → ∀ x ∈ l, existsHostFile hv x = true)

theorem parseLine_invariant (hv : Dir) (st : Option String × ParseOut) (raw : String)
    (hinv : ParseInvariant hv st) : ParseInvariant hv (parseLine hv st raw) := by
  obtain ⟨h1, h2, h3, h4⟩ := hinv
  unfold parseLine
  by_cases hc1 : (pyIsEmpty (pyStrip raw) || pyStartsWith (pyStrip raw) "#") = true
  · simpa [hc1] using ⟨h1, h2, h3, h4⟩
  · rw [Bool.not_eq_true] at hc1
    simp only [hc1, Bool.false_eq_true, if_false]
    by_cases hc2 : (pyStartsWith (pyStrip raw) "[" && pyEndsWith (pyStrip raw) "]") = true
    · simp only [hc2, if_true]
      refine ⟨h1, nodup_keys_dictSet _ _ _ h2, h3, ?_⟩
      intro g l hl x hx
      rw [dlookup_dictSet] at hl
      by_cases hg : pyStrip (String.mk (((pyStrip raw).data.drop 1).dropLast)) = g
      · rw [if_pos hg] at hl
        cases hl
        simp at hx
      · rw [if_neg hg] at hl
        exact h4 g l hl x hx
    · rw [Bool.not_eq_true] at hc2
      simp only [hc2, Bool.false_eq_true, if_false]
      cases hcg : st.1 with
      | none => exact ⟨h1, h2, h3, h4⟩
      | some g =>
        by_cases hge : g = ""
        · simp [hge]
          exact ⟨h1, h2, h3, h4⟩
        · simp only [hge, if_false]
          set hostn := if pyContains (pyStrip raw) ' ' then pyStrip (pyFirstTok (pyStrip raw))
            else pyStrip raw with hhostn
          by_cases hex : existsHostFile hv hostn = true
          · simp only [hex, if_true]
            refine ⟨nodup_keys_dictAppend _ _ _ h1, nodup_keys_dictAppend _ _ _ h2, ?_, ?_⟩
            · intro h hmem
              rcases (keysOf_dictAppend _ _ _ _).mp hmem with hh | hh
              · rw [hh]; exact hex
              · exact h3 h hh
            · intro g2 l hl x hx
              rw [dlookup_dictAppend] at hl
              by_cases hg2 : g = g2
              · rw [if_pos hg2] at hl
                cases hl
                rcases List.mem_append.mp hx with hx1 | hx2
                · rcases hlk : dlookup st.2.groups g with _ | l0
                  · rw [dlookupL, hlk] at hx1
                    simp at hx1
                  · rw [dlookupL, hlk] at hx1
                    exact h4 g l0 hlk x hx1
                · rw [List.mem_singleton.mp hx2]
                  exact hex
              · rw [if_neg hg2] at hl
                exact h4 g2 l hl x hx
          · simp only [hex, Bool.false_eq_true, if_false]
            exact ⟨h1, h2, h3, h4⟩

theorem parse_foldl_invariant (hv : Dir) (lines : List String)
    (st : Option String × ParseOut) (hinv : ParseInvariant hv st) :
    ParseInvariant hv (lines.foldl (parseLine hv) st) := by
  induction lines generalizing st with
  | nil => exact hinv
  | cons l rest ih => exact ih _ (parseLine_invariant hv st l hinv)

theorem parse_invariant (inv : InvState) :
    ParseInvariant inv.hostVarsDir
      (inv.hostsLines.foldl (parseLine inv.hostVarsDir) (none, ⟨[], []⟩)) :=
  parse_foldl_invariant _ _ _ ⟨List.nodup_nil, List.nodup_nil, by simp [keysOf], by
    intro g l hl
    simp [dlookup] at hl⟩

theorem parsedHosts_keys_nodup (inv : InvState) : (keysOf (parsedHosts inv)).Nodup :=
  (parse_invariant inv).1

theorem parsedGroups_keys_nodup (inv : InvState) : (keysOf (parsedGroups inv)).Nodup :=
  (parse_invariant inv).2.1

theorem parsedHosts_backing (inv : InvState) (h : String) (hmem : h ∈ keysOf (parsedHosts inv)) :
    existsHostFile inv.hostVarsDir h = true :=
  (parse_invariant inv).2.2.1 h hmem

theorem parsedGroups_backing (inv : InvState) (g : String) (l : List String)
    (hl : dlookup (parsedGroups inv) g = some l) (x : String) (hx : x ∈ l) :
    existsHostFile inv.hostVarsDir x = true :=
  (parse_invariant inv).2.2.2 g l hl x hx

/-- Under the parser's own filtering, the missing-file re-check always comes
back empty: every modeled host still has its backing file. -/
theorem missingFiles_eq_nil (inv : InvState) : missingFiles inv = [] := by
  rw [missingFiles, List.filter_eq_nil_iff]
  intro h hmem
  rw [parsedHosts_backing inv h hmem]
  simp

/-! ## The shape of the analysis report -/

/-- Master description of a report lookup: orphan stems map to the synthetic
orphan record (they are written last and never collide with host keys), and
parsed hosts map to their built record. -/
theorem analyze_lookup (inv : InvState) (h : String) :
    dlookup (analyze_inventory inv) h =
      if h ∈ orphanedFiles inv then some orphanRecord
      else (dlookup (parsedHosts inv) h).map (fun grps => hostRecordOf inv h grps) := by
  rw [analyze_inventory, dlookup_foldl_dictSet_const]
  by_cases ho : h ∈ orphanedFiles inv
  · simp [ho]
  · rw [if_neg ho, if_neg ho]
    rcases hlk : dlookup (parsedHosts inv) h with _ | grps
    · rw [dlookup_eq_none_iff] at hlk
      rw [dlookup_foldl_dictSet_notkey]
      · simp [dlookup]
      · intro p hp hne
        exact hlk (hne ▸ List.mem_map_of_mem Prod.fst hp)
    · have hmem : (h, grps) ∈ parsedHosts inv := dlookup_some_mem hlk
      rw [dlookup_foldl_dictSet_key _ _ _ _ _ (parsedHosts_keys_nodup inv) hmem]
      simp

/-- The report has unique keys: one record per identifier. -/
theorem analyze_keys_nodup (inv : InvState) :
    (keysOf (analyze_inventory inv)).Nodup := by
  rw [analyze_inventory]
  exact nodup_keys_foldl_dictSet_const _ _ _
    (nodup_keys_foldl_dictSet _ _ _ List.nodup_nil)

/-- Orphan stems are never parsed hosts (the report's two passes write
disjoint key sets). -/
theorem orphanedFiles_not_host (inv : InvState) (h : String)
    (ho : h ∈ orphanedFiles inv) : h ∉ keysOf (parsedHosts inv) := by
  rw [orphanedFiles] at ho
  have := (List.mem_filter.mp ho).2
  intro hmem
  have hnotin : h ∉ hostKeys inv := by simpa using this
  exact hnotin (by simpa [hostKeys, keysOf] using hmem)

/-! ## Membership in the cross-reference outputs -/

theorem containsKey_cons {α : Type} (p : String × α) (rest : List (String × α)) (k : String) :
    containsKey (p :: rest) k = true ↔ p.1 = k ∨ containsKey rest k = true := by
  by_cases h : p.1 = k
  · simp [containsKey, dlookup, h]
  · obtain ⟨a, b⟩ := p
    simp only at h
    simp [containsKey, dlookup, h]

theorem mem_dlookupL_dictAppend {α : Type} (m : List (String × List α)) (k q : String)
    (v : α) (x : α) :
    x ∈ dlookupL (dictAppend m k v) q ↔ x ∈ dlookupL m q ∨ (k = q ∧ x = v) := by
  rw [dlookupL, dlookup_dictAppend]
  by_cases hk : k = q
  · subst hk
    simp [dlookupL]
  · simp [hk, dlookupL]

theorem mem_dup_inner (gf hn : String) (hd : Ydoc) (gd : Ydoc)
    (acc : List (String × List (String × String))) (var : String) (x : String × String) :
    x ∈ dlookupL (gd.foldl (dupStep gf hn hd) acc) var ↔
      x ∈ dlookupL acc var ∨
        (x = (gf, hn) ∧ containsKey gd var = true ∧ containsKey hd var = true) := by
  induction gd generalizing acc with
  | nil => simp [containsKey, dlookup]
  | cons p rest ih =>
    rw [List.foldl_cons, ih]
    have hck := containsKey_cons p rest var
    unfold dupStep
    by_cases hhd : containsKey hd p.1 = true
    · rw [if_pos hhd, mem_dlookupL_dictAppend]
      have himp : p.1 = var → containsKey hd var = true := fun h => h ▸ hhd
      tauto
    · rw [if_neg hhd]
      have himp : p.1 = var → ¬ containsKey hd var = true := fun h => h ▸ hhd
      tauto

theorem mem_dup_mid (gf : String) (gd : Ydoc) (hv : List (String × Ydoc))
    (acc : List (String × List (String × String))) (var : String) (x : String × String) :
    x ∈ dlookupL (hv.foldl (fun acc2 h =>
        gd.foldl (dupStep gf (splitextStem h.1) h.2) acc2) acc) var ↔
      x ∈ dlookupL acc var ∨ ∃ hf hd, (hf, hd) ∈ hv ∧ x = (gf, splitextStem hf) ∧
        containsKey gd var = true ∧ containsKey hd var = true := by
  induction hv generalizing acc with
  | nil => simp
  | cons h rest ih =>
    rw [List.foldl_cons, ih, mem_dup_inner]
    constructor
    · rintro ((hx | ⟨hx, hgd, hhd⟩) | ⟨hf, hd, hmem, hx, hgd, hhd⟩)
      · exact Or.inl hx
      · refine Or.inr ⟨h.1, h.2, ?_, hx, hgd, hhd⟩
        rw [Prod.mk.eta]
        exact List.mem_cons_self _ _
      · exact Or.inr ⟨hf, hd, List.mem_cons_of_mem _ hmem, hx, hgd, hhd⟩
    · rintro (hx | ⟨hf, hd, hmem, hx, hgd, hhd⟩)
      · exact Or.inl (Or.inl hx)
      · rcases List.mem_cons.mp hmem with heq | hmem2
        · subst heq
          exact Or.inl (Or.inr ⟨hx, hgd, hhd⟩)
        · exact Or.inr ⟨hf, hd, hmem2, hx, hgd, hhd⟩

theorem mem_dup_occurrence (gv hv : List (String × Ydoc)) (var : String)
    (x : String × String) :
    x ∈ dlookupL (check_duplicate_vars gv hv) var ↔
      ∃ gf gd hf hd, (gf, gd) ∈ gv ∧ (hf, hd) ∈ hv ∧ x = (gf, splitextStem hf) ∧
        containsKey gd var = true ∧ containsKey hd var = true := by
  rw [check_duplicate_vars]
  have main : ∀ (gl : List (String × Ydoc)) (acc : List (String × List (String × String))),
      x ∈ dlookupL (gl.foldl (fun acc g => hv.foldl (fun acc2 h =>
        g.2.foldl (dupStep g.1 (splitextStem h.1) h.2) acc2) acc) acc) var ↔
      x ∈ dlookupL acc var ∨ ∃ gf gd hf hd, (gf, gd) ∈ gl ∧ (hf, hd) ∈ hv ∧
        x = (gf, splitextStem hf) ∧ containsKey gd var = true ∧
        containsKey hd var = true := by
    intro gl
    induction gl with
    | nil => simp
    | cons g rest ih =>
      intro acc
      rw [List.foldl_cons, ih, mem_dup_mid]
      constructor
      · rintro ((hx | ⟨hf, hd, hmem, hx, hgd, hhd⟩) | ⟨gf, gd, hf, hd, hg, hh, hx, hgd, hhd⟩)
        · exact Or.inl hx
        · refine Or.inr ⟨g.1, g.2, hf, hd, ?_, hmem, hx, hgd, hhd⟩
          rw [Prod.mk.eta]
          exact List.mem_cons_self _ _
        · exact Or.inr ⟨gf, gd, hf, hd, List.mem_cons_of_mem _ hg, hh, hx, hgd, hhd⟩
      · rintro (hx | ⟨gf, gd, hf, hd, hg, hh, hx, hgd, hhd⟩)
        · exact Or.inl (Or.inl hx)
        · rcases List.mem_cons.mp hg with heq | hg2
          · subst heq
            exact Or.inl (Or.inr ⟨hf, hd, hh, hx, hgd, hhd⟩)
          · exact Or.inr ⟨gf, gd, hf, hd, hg2, hh, hx, hgd, hhd⟩
  rw [main]
  simp [dlookupL, dlookup]

theorem mem_incons_inner (gf hn : String) (hd : Ydoc) (gd : Ydoc)
    (acc : List (String × List Conflict)) (var : String) (c : Conflict) :
    c ∈ dlookupL (gd.foldl (inconsStep gf hn hd) acc) var ↔
      c ∈ dlookupL acc var ∨ ∃ gval hval, (var, gval) ∈ gd ∧
        dlookup hd var = some hval ∧ ¬ hval = gval ∧ c = ⟨gf, hn, gval, hval⟩ := by
  induction gd generalizing acc with
  | nil => simp
  | cons p rest ih =>
    rw [List.foldl_cons, ih]
    have hstep : c ∈ dlookupL (inconsStep gf hn hd acc p) var ↔
        c ∈ dlookupL acc var ∨ ∃ hval, p.1 = var ∧ dlookup hd p.1 = some hval ∧
          ¬ hval = p.2 ∧ c = ⟨gf, hn, p.2, hval⟩ := by
      rcases hlk : dlookup hd p.1 with _ | hval
      · simp [inconsStep, hlk]
      · by_cases hne : hval = p.2
        · simp only [inconsStep, hlk, if_pos hne]
          constructor
          · exact Or.inl
          · rintro (hx | ⟨hval2, hpv, hlk2, hne2, hc⟩)
            · exact hx
            · injection hlk2 with hv2
              exact absurd (hv2 ▸ hne) hne2
        · simp only [inconsStep, hlk, if_neg hne]
          rw [mem_dlookupL_dictAppend]
          constructor
          · rintro (hx | ⟨hpv, hc⟩)
            · exact Or.inl hx
            · exact Or.inr ⟨hval, hpv, rfl, hne, hc⟩
          · rintro (hx | ⟨hval2, hpv, hlk2, hne2, hc⟩)
            · exact Or.inl hx
            · injection hlk2 with hv2
              exact Or.inr ⟨hpv, hv2 ▸ hc⟩
    rw [hstep]
    constructor
    · rintro ((hx | ⟨hval, hpv, hlkp, hnep, hc⟩) | ⟨gval, hval, hmem, hlk, hne, hc⟩)
      · exact Or.inl hx
      · refine Or.inr ⟨p.2, hval, ?_, ?_, hnep, hc⟩
        · rw [← hpv, Prod.mk.eta]
          exact List.mem_cons_self _ _
        · rw [← hpv]
          exact hlkp
      · exact Or.inr ⟨gval, hval, List.mem_cons_of_mem _ hmem, hlk, hne, hc⟩
    · rintro (hx | ⟨gval, hval, hmem, hlk, hne, hc⟩)
      · exact Or.inl (Or.inl hx)
      · rcases List.mem_cons.mp hmem with heq | hmem2
        · have hp1 : p.1 = var := by rw [← heq]
          have hp2 : p.2 = gval := by rw [← heq]
          refine Or.inl (Or.inr ⟨hval, hp1, ?_, ?_, ?_⟩)
          · rw [hp1]
            exact hlk
          · rw [hp2]
            exact hne
          · rw [hp2]
            exact hc
        · exact Or.inr ⟨gval, hval, hmem2, hlk, hne, hc⟩

theorem mem_incons_occurrence (gv hv : List (String × Ydoc)) (var : String) (c : Conflict) :
    c ∈ dlookupL (check_inconsistent_values gv hv) var ↔
      ∃ gf gd hf hd gval hval, (gf, gd) ∈ gv ∧ (hf, hd) ∈ hv ∧ (var, gval) ∈ gd ∧
        dlookup hd var = some hval ∧ ¬ hval = gval ∧
        c = ⟨gf, splitextStem hf, gval, hval⟩ := by
  rw [check_inconsistent_values]
  have mid : ∀ (g : String × Ydoc) (hl : List (String × Ydoc))
      (acc : List (String × List Conflict)),
      c ∈ dlookupL (hl.foldl (fun acc2 h =>
        g.2.foldl (inconsStep g.1 (splitextStem h.1) h.2) acc2) acc) var ↔
      c ∈ dlookupL acc var ∨ ∃ hf hd gval hval, (hf, hd) ∈ hl ∧ (var, gval) ∈ g.2 ∧
        dlookup hd var = some hval ∧ ¬ hval = gval ∧
        c = ⟨g.1, splitextStem hf, gval, hval⟩ := by
    intro g hl
    induction hl with
    | nil => simp
    | cons h rest ih =>
      intro acc
      rw [List.foldl_cons, ih, mem_incons_inner]
      constructor
      · rintro ((hx | ⟨gval, hval, hmem, hlk, hne, hc⟩) | ⟨hf, hd, gval, hval, hm, hmem, hlk, hne, hc⟩)
        · exact Or.inl hx
        · refine Or.inr ⟨h.1, h.2, gval, hval, ?_, hmem, hlk, hne, hc⟩
          rw [Prod.mk.eta]
          exact List.mem_cons_self _ _
        · exact Or.inr ⟨hf, hd, gval, hval, List.mem_cons_of_mem _ hm, hmem, hlk, hne, hc⟩
      · rintro (hx | ⟨hf, hd, gval, hval, hm, hmem, hlk, hne, hc⟩)
        · exact Or.inl (Or.inl hx)
        · rcases List.mem_cons.mp hm with heq | hm2
          · subst heq
            exact Or.inl (Or.inr ⟨gval, hval, hmem, hlk, hne, hc⟩)
          · exact Or.inr ⟨hf, hd, gval, hval, hm2, hmem, hlk, hne, hc⟩
  have main : ∀ (gl : List (String × Ydoc)) (acc : List (String × List Conflict)),
      c ∈ dlookupL (gl.foldl (fun acc g => hv.foldl (fun acc2 h =>
        g.2.foldl (inconsStep g.1 (splitextStem h.1) h.2) acc2) acc) acc) var ↔
      c ∈ dlookupL acc var ∨ ∃ gf gd hf hd gval hval, (gf, gd) ∈ gl ∧ (hf, hd) ∈ hv ∧
        (var, gval) ∈ gd ∧ dlookup hd var = some hval ∧ ¬ hval = gval ∧
        c = ⟨gf, splitextStem hf, gval, hval⟩ := by
    intro gl
    induction gl with
    | nil => simp
    | cons g rest ih =>
      intro acc
      rw [List.foldl_cons, ih, mid]
      constructor
      · rintro ((hx | ⟨hf, hd, gval, hval, hm, hmem, hlk, hne, hc⟩) |
          ⟨gf, gd, hf, hd, gval, hval, hg, hh, hmem, hlk, hne, hc⟩)
        · exact Or.inl hx
        · refine Or.inr ⟨g.1, g.2, hf, hd, gval, hval, ?_, hm, hmem, hlk, hne, hc⟩
          rw [Prod.mk.eta]
          exact List.mem_cons_self _ _
        · exact Or.inr ⟨gf, gd, hf, hd, gval, hval, List.mem_cons_of_mem _ hg, hh, hmem,
            hlk, hne, hc⟩
      · rintro (hx | ⟨gf, gd, hf, hd, gval, hval, hg, hh, hmem, hlk, hne, hc⟩)
        · exact Or.inl (Or.inl hx)
        · rcases List.mem_cons.mp hg with heq | hg2
          · subst heq
            exact Or.inl (Or.inr ⟨hf, hd, gval, hval, hh, hmem, hlk, hne, hc⟩)
          · exact Or.inr ⟨gf, gd, hf, hd, gval, hval, hg2, hh, hmem, hlk, hne, hc⟩
  rw [main]
  simp [dlookupL, dlookup]

/-! ## The case-insensitive lookup table of the cleanup -/

theorem isSome_dlookup_dictSet {α : Type} (m : List (String × α)) (k v : String) (w : α)
    (h : (dlookup m v).isSome = true) : (dlookup (dictSet m k w) v).isSome = true := by
  rw [dlookup_dictSet]
  by_cases hk : k = v
  · simp [hk]
  · simpa [hk] using h

theorem buildCI_entry (d : Ydoc) (acc : List (String × String)) (v k : String)
    (h : dlookup (d.foldl (fun m p => dictSet m (pyLower p.1) p.1) acc) v = some k) :
    dlookup acc v = some k ∨ (k ∈ keysOf d ∧ pyLower k = v) := by
  induction d generalizing acc with
  | nil => exact Or.inl h
  | cons p rest ih =>
    rw [List.foldl_cons] at h
    rcases ih _ h with h1 | h2
    · rw [dlookup_dictSet] at h1
      by_cases hp : pyLower p.1 = v
      · rw [if_pos hp] at h1
        injection h1 with hk
        refine Or.inr ⟨?_, ?_⟩
        · rw [← hk]
          exact List.mem_map_of_mem Prod.fst (List.mem_cons_self _ _)
        · rw [← hk]
          exact hp
      · rw [if_neg hp] at h1
        exact Or.inl h1
    · exact Or.inr ⟨List.mem_cons_of_mem _ h2.1, h2.2⟩

theorem buildCI_nolower (d : Ydoc) (acc : List (String × String)) (v : String)
    (h : ∀ p ∈ d, ¬ pyLower p.1 = v) :
    dlookup (d.foldl (fun m p => dictSet m (pyLower p.1) p.1) acc) v = dlookup acc v := by
  induction d generalizing acc with
  | nil => rfl
  | cons p rest ih =>
    rw [List.foldl_cons, ih _ (fun q hq => h q (List.mem_cons_of_mem _ hq))]
    rw [dlookup_dictSet, if_neg (h p (List.mem_cons_self _ _))]

theorem isSome_foldl_ci (rest : Ydoc) (acc : List (String × String)) (v : String)
    (h : (dlookup acc v).isSome = true) :
    (dlookup (rest.foldl (fun m q => dictSet m (pyLower q.1) q.1) acc) v).isSome = true := by
  induction rest generalizing acc with
  | nil => exact h
  | cons r rest2 ih =>
    rw [List.foldl_cons]
    exact ih _ (isSome_dlookup_dictSet _ _ _ _ h)

theorem buildCI_isSome (d : Ydoc) (acc : List (String × String)) (v : String)
    (p : String × YVal) (hp : p ∈ d) (hv : pyLower p.1 = v) :
    (dlookup (d.foldl (fun m q => dictSet m (pyLower q.1) q.1) acc) v).isSome = true := by
  induction d generalizing acc with
  | nil => simp at hp
  | cons q rest ih =>
    rw [List.foldl_cons]
    rcases List.mem_cons.mp hp with heq | hmem
    · subst heq
      refine isSome_foldl_ci rest _ v ?_
      rw [dlookup_dictSet, if_pos hv]
      rfl
    · exact ih _ hmem

theorem buildCI_hit (d : Ydoc) (k : String) (w : YVal) (hnd : distinctLower d)
    (hmem : (k, w) ∈ d) : dlookup (buildCI d) (pyLower k) = some k := by
  rw [buildCI]
  have main : ∀ acc, dlookup (d.foldl (fun m p => dictSet m (pyLower p.1) p.1) acc)
      (pyLower k) = some k := by
    induction d with
    | nil => simp at hmem
    | cons p rest ih =>
      intro acc
      rw [distinctLower, List.map_cons, List.nodup_cons] at hnd
      rw [List.foldl_cons]
      rcases List.mem_cons.mp hmem with heq | hmem2
      · have hk : p.1 = k := by rw [← heq]
        rw [buildCI_nolower]
        · rw [dlookup_dictSet, hk, if_pos rfl]
        · intro q hq hEq
          apply hnd.1
          rw [← hk] at hEq
          rw [← hEq]
          exact List.mem_map_of_mem (fun r => pyLower r.1) hq
      · exact ih hnd.2 hmem2 _
  exact main []

theorem buildCI_none (d : Ydoc) (v : String) (h : dlookup (buildCI d) v = none) :
    ∀ p ∈ d, ¬ pyLower p.1 = v := by
  intro p hp hv
  have := buildCI_isSome d [] v p hp hv
  rw [buildCI] at h
  rw [h] at this
  simp at this

theorem uniqueLower (d : Ydoc) (hnd : distinctLower d) (p q : String × YVal)
    (hp : p ∈ d) (hq : q ∈ d) (hl : pyLower p.1 = pyLower q.1) : p.1 = q.1 := by
  induction d with
  | nil => simp at hp
  | cons r rest ih =>
    rw [distinctLower, List.map_cons, List.nodup_cons] at hnd
    rcases List.mem_cons.mp hp with hp1 | hp2 <;> rcases List.mem_cons.mp hq with hq1 | hq2
    · rw [hp1, hq1]
    · exfalso
      apply hnd.1
      have hrl : pyLower r.1 = pyLower q.1 := by
        rw [← hp1]
        exact hl
      rw [hrl]
      exact List.mem_map_of_mem (fun x => pyLower x.1) hq2
    · exfalso
      apply hnd.1
      have hrl : pyLower r.1 = pyLower p.1 := by
        rw [← hq1]
        exact hl.symm
      rw [hrl]
      exact List.mem_map_of_mem (fun x => pyLower x.1) hp2
    · exact ih hnd.2 hp2 hq2

/-! ## Characterisation of the per-document cleanup -/

theorem keepS_append_irrelevant (S : List String) (v k : String)
    (h : ¬ pyLower k = v) : keepS (S ++ [v]) k = keepS S k := by
  rw [keepS, keepS, decide_eq_decide]
  simp only [List.mem_append, List.mem_singleton]
  tauto

theorem keepS_append_of_mem (S : List String) (v k : String) (hv : v ∈ S) :
    keepS (S ++ [v]) k = keepS S k := by
  rw [keepS, keepS, decide_eq_decide]
  simp only [List.mem_append, List.mem_singleton]
  constructor
  · rintro (h | h)
    · exact Or.inl h
    · exact Or.inr (fun hm => h (Or.inl hm))
  · rintro (h | h)
    · exact Or.inl h
    · refine Or.inr ?_
      rintro (hm | hm)
      · exact h hm
      · exact h (hm ▸ hv)

theorem delVar_filter (d : Ydoc) (hnd : distinctLower d) (S : List String) (v : String) :
    delVar (buildCI d) (d.filter (fun p => keepS S p.1)) v
      = d.filter (fun p => keepS (S ++ [v]) p.1) := by
  rcases hci : dlookup (buildCI d) v with _ | k
  · have hno := buildCI_none d v hci
    rw [delVar, hci]
    exact (List.filter_congr (fun p hp =>
      (keepS_append_irrelevant S v p.1 (hno p hp)).symm)).symm ▸ rfl
  · have hk := buildCI_entry d [] v k (by rw [buildCI] at hci; exact hci)
    rcases hk with habs | ⟨hkmem, hklow⟩
    · simp [dlookup] at habs
    obtain ⟨pq, hpq, hpq1⟩ := List.mem_map.mp hkmem
    have huniq : ∀ p ∈ d, pyLower p.1 = v → p.1 = k := by
      intro p hp hpl
      have := uniqueLower d hnd p pq hp hpq (by rw [hpl, hpq1, hklow])
      rw [this, hpq1]
    simp only [delVar, hci]
    by_cases hke : k = ""
    · rw [if_neg (by simp [hke])]
      apply List.filter_congr
      intro p hp
      by_cases hpl : pyLower p.1 = v
      · have hpk : p.1 = k := huniq p hp hpl
        rw [hpk, hke]
        simp [keepS]
      · exact (keepS_append_irrelevant S v p.1 hpl).symm
    · by_cases hvS : v ∈ S
      · have hcf : containsKey (d.filter (fun p => keepS S p.1)) k = false := by
          rcases hdl : dlookup (d.filter (fun p => keepS S p.1)) k with _ | w
          · simp [containsKey, hdl]
          · exfalso
            have hmem := dlookup_some_mem hdl
            have hkeep := (List.mem_filter.mp hmem).2
            rw [keepS] at hkeep
            rcases of_decide_eq_true hkeep with h1 | h2
            · exact hke h1
            · exact h2 (hklow ▸ hvS)
        rw [if_neg (by simp [hcf])]
        apply List.filter_congr
        intro p hp
        exact (keepS_append_of_mem S v p.1 hvS).symm
      · have hkS : keepS S k = true := by
          rw [keepS]
          exact decide_eq_true (Or.inr (hklow ▸ hvS))
        have hw : (pq.1, pq.2) ∈ d := by
          rw [Prod.mk.eta]
          exact hpq
        have hcf : containsKey (d.filter (fun p => keepS S p.1)) k = true := by
          rw [containsKey_iff_mem_keys]
          refine List.mem_map.mpr ⟨pq, List.mem_filter.mpr ⟨hpq, ?_⟩, hpq1⟩
          rw [hpq1]
          exact hkS
        rw [if_pos ⟨hke, hcf⟩]
        rw [List.filter_filter]
        apply List.filter_congr
        intro p hp
        by_cases hpk : p.1 = k
        · have hlhs : (decide ¬(p.1 = k)) = false := by simp [hpk]
          have hrhs : keepS (S ++ [v]) p.1 = false := by
            rw [keepS, decide_eq_false_iff_not]
            push_neg
            refine ⟨hpk ▸ hke, ?_⟩
            rw [hpk, hklow]
            simp
          rw [hrhs]
          simp [hpk]
        · have hpl : ¬ pyLower p.1 = v := fun h => hpk (huniq p hp h)
          rw [keepS_append_irrelevant S v p.1 hpl]
          simp [hpk]

theorem clean_fold (d : Ydoc) (hnd : distinctLower d) (vs : List String) :
    ∀ S, vs.foldl (delVar (buildCI d)) (d.filter (fun p => keepS S p.1))
      = d.filter (fun p => keepS (S ++ vs) p.1) := by
  induction vs with
  | nil => intro S; simp
  | cons v rest ih =>
    intro S
    rw [List.foldl_cons, delVar_filter d hnd S v, ih (S ++ [v]), List.append_assoc]
    rfl

theorem cleanDoc_eq_filter (rec : HostRec) (d : Ydoc) (hnd : distinctLower d) :
    cleanDoc rec d = d.filter (fun p => keepKey rec p.1) := by
  have h0 : d.filter (fun p => keepS [] p.1) = d := by
    rw [List.filter_eq_self]
    intro p hp
    rw [keepS]
    exact decide_eq_true (Or.inr (by simp))
  calc cleanDoc rec d
      = (flaggedVars rec).foldl (delVar (buildCI d)) d := rfl
    _ = (flaggedVars rec).foldl (delVar (buildCI d)) (d.filter (fun p => keepS [] p.1)) := by
        rw [h0]
    _ = d.filter (fun p => keepS ([] ++ flaggedVars rec) p.1) := clean_fold d hnd _ []
    _ = d.filter (fun p => keepKey rec p.1) := by
        rw [List.nil_append]
        rfl

theorem distinctLower_filter (d : Ydoc) (q : String × YVal → Bool)
    (hnd : distinctLower d) : distinctLower (d.filter q) := by
  rw [distinctLower] at hnd ⊢
  exact ((List.filter_sublist d).map (fun p => pyLower p.1)).nodup hnd

theorem applyRecs_eq_filter (rs : List HostRec) (d : Ydoc) (hnd : distinctLower d) :
    applyRecs rs d = d.filter (fun p => allKeep rs p.1) := by
  induction rs generalizing d with
  | nil =>
    rw [applyRecs, List.foldl_nil]
    rw [List.filter_eq_self.mpr]
    intro p hp
    rw [allKeep, List.all_nil]
  | cons r rest ih =>
    rw [applyRecs, List.foldl_cons, show List.foldl (fun d r => cleanDoc r d)
      (cleanDoc r d) rest = applyRecs rest (cleanDoc r d) from rfl]
    rw [cleanDoc_eq_filter r d hnd]
    rw [ih _ (distinctLower_filter d _ hnd)]
    rw [List.filter_filter]
    apply List.filter_congr
    intro p hp
    simp [allKeep, Bool.and_comm]

theorem applyRecs_idem (rs : List HostRec) (d : Ydoc) (hnd : distinctLower d) :
    applyRecs rs (applyRecs rs d) = applyRecs rs d := by
  rw [applyRecs_eq_filter rs d hnd,
    applyRecs_eq_filter rs _ (distinctLower_filter d _ hnd),
    List.filter_filter]
  apply List.filter_congr
  intro p hp
  rw [Bool.and_self]

theorem cleanChain_cons (pr : String × HostRec) (rest : List (String × HostRec))
    (f : String) (c : FileContent) :
    cleanChain (pr :: rest) f c = cleanChain rest f
      (if pr.1 ++ ".yml" = f then writeDoc (cleanDoc pr.2 (load_yaml_file c)) else c) := by
  rw [cleanChain, cleanChain, List.foldl_cons]

theorem cleanChain_eq (results : List (String × HostRec)) (f : String) (c : FileContent) :
    cleanChain results f c =
      if recsFor results f = [] then c
      else writeDoc (applyRecs (recsFor results f) (load_yaml_file c)) := by
  induction results generalizing c with
  | nil => rw [cleanChain, List.foldl_nil, recsFor, List.filter_nil, List.map_nil, if_pos rfl]
  | cons pr rest ih =>
    rw [cleanChain_cons]
    by_cases hf : pr.1 ++ ".yml" = f
    · have hrecs : recsFor (pr :: rest) f = pr.2 :: recsFor rest f := by
        rw [recsFor, List.filter_cons, if_pos (by simpa using hf), List.map_cons]
        rfl
      rw [if_pos hf, ih, hrecs]
      rcases hrr : recsFor rest f with _ | ⟨r0, rs0⟩
      · rw [if_pos rfl, if_neg (by simp)]
        rfl
      · rw [if_neg (by simp), if_neg (by simp)]
        rfl
    · have hrecs : recsFor (pr :: rest) f = recsFor rest f := by
        rw [recsFor, List.filter_cons, if_neg (by simpa using hf)]
        rfl
      rw [if_neg hf, ih, hrecs]

theorem cleanChain_idem (results : List (String × HostRec)) (f : String) (c : FileContent)
    (hdl : distinctLower (load_yaml_file c)) :
    cleanChain results f (cleanChain results f c) = cleanChain results f c := by
  rcases hrr : recsFor results f with _ | ⟨r0, rs0⟩
  · rw [cleanChain_eq, hrr, if_pos rfl, cleanChain_eq, hrr, if_pos rfl]
  · rw [cleanChain_eq results f c, hrr, if_neg (by simp)]
    rw [cleanChain_eq, hrr, if_neg (by simp)]
    rw [show load_yaml_file (writeDoc (applyRecs (r0 :: rs0) (load_yaml_file c)))
      = applyRecs (r0 :: rs0) (load_yaml_file c) from rfl]
    rw [applyRecs_idem _ _ hdl]

theorem keysOf_updateFile (dir : Dir) (f : String) (c : FileContent) :
    keysOf (updateFile dir f c) = keysOf dir := by
  rw [updateFile, keysOf, List.map_map, keysOf]
  apply List.map_congr_left
  intro p hp
  by_cases hf : p.1 = f
  · simp [hf]
  · simp [hf]

theorem clean_host_vars_map (results : List (String × HostRec)) (hv : Dir)
    (hnd : (keysOf hv).Nodup) :
    clean_host_vars hv results = hv.map (fun e => (e.1, cleanChain results e.1 e.2)) := by
  induction results generalizing hv with
  | nil =>
    rw [clean_host_vars, List.foldl_nil]
    symm
    rw [show (fun (e : String × FileContent) => (e.1, cleanChain [] e.1 e.2))
      = (fun e => (e.1, e.2)) from rfl]
    rw [show (fun (e : String × FileContent) => (e.1, e.2)) = id from ?heta]
    · exact List.map_id hv
    case heta =>
      funext e
      rw [Prod.mk.eta]
      rfl
  | cons pr rest ih =>
    rw [clean_host_vars, List.foldl_cons]
    rcases hlk : dlookup hv (pr.1 ++ ".yml") with _ | c
    · rw [show List.foldl (fun dir pr2 => match dlookup dir (pr2.1 ++ ".yml") with
        | none => dir
        | some c => updateFile dir (pr2.1 ++ ".yml")
            (writeDoc (cleanDoc pr2.2 (load_yaml_file c)))) hv rest
        = clean_host_vars hv rest from rfl]
      rw [ih hv hnd]
      apply List.map_congr_left
      intro e he
      have hne : ¬ pr.1 ++ ".yml" = e.1 := by
        intro hEq
        rw [dlookup_eq_none_iff] at hlk
        exact hlk (hEq ▸ List.mem_map_of_mem Prod.fst he)
      rw [cleanChain_cons, if_neg hne]
    · rw [show List.foldl (fun dir pr2 => match dlookup dir (pr2.1 ++ ".yml") with
        | none => dir
        | some c2 => updateFile dir (pr2.1 ++ ".yml")
            (writeDoc (cleanDoc pr2.2 (load_yaml_file c2))))
        (updateFile hv (pr.1 ++ ".yml") (writeDoc (cleanDoc pr.2 (load_yaml_file c)))) rest
        = clean_host_vars (updateFile hv (pr.1 ++ ".yml")
            (writeDoc (cleanDoc pr.2 (load_yaml_file c)))) rest from rfl]
      rw [ih _ (by rw [keysOf_updateFile]; exact hnd)]
      rw [updateFile, List.map_map]
      apply List.map_congr_left
      intro e he
      by_cases hf : e.1 = pr.1 ++ ".yml"
      · have he2 : (e.1, e.2) ∈ hv := by
          rw [Prod.mk.eta]
          exact he
        have hc : e.2 = c := by
          have hsome := mem_dlookup_of_nodup hnd he2
          rw [hf] at hsome
          rw [hsome] at hlk
          exact Option.some.inj hlk
        have hcond : pr.1 ++ ".yml" = e.1 := hf.symm
        simp only [Function.comp_apply, if_pos hf]
        rw [cleanChain_cons, if_pos hcond, hc]
      · have hcond : ¬ pr.1 ++ ".yml" = e.1 := fun hEq => hf hEq.symm
        simp only [Function.comp_apply, if_neg hf]
        rw [cleanChain_cons, if_neg hcond]

theorem keysOf_map_chain (hv : Dir) (g : String × FileContent → FileContent) :
    keysOf (hv.map (fun e => (e.1, g e))) = keysOf hv := by
  rw [keysOf, List.map_map, keysOf]
  apply List.map_congr_left
  intro p hp
  rfl

theorem dlookup_updateFile_ne (dir : Dir) (f f2 : String) (c : FileContent)
    (hne : ¬ f = f2) : dlookup (updateFile dir f c) f2 = dlookup dir f2 := by
  induction dir with
  | nil => rfl
  | cons p rest ih =>
    rw [updateFile, List.map_cons]
    by_cases hp : p.1 = f
    · rw [if_pos hp]
      have hp2 : ¬ p.1 = f2 := by
        rw [hp]
        exact hne
      rw [show dlookup ((p.1, c) :: List.map (fun p => if p.1 = f then (p.1, c) else p) rest) f2
        = dlookup (List.map (fun p => if p.1 = f then (p.1, c) else p) rest) f2 by
          rw [dlookup, if_neg hp2]]
      rw [show dlookup (p :: rest) f2 = dlookup rest f2 by rw [dlookup, if_neg hp2]]
      exact ih
    · rw [if_neg hp]
      by_cases hp2 : p.1 = f2
      · rw [show dlookup (p :: List.map (fun p => if p.1 = f then (p.1, c) else p) rest) f2
          = some p.2 by rw [dlookup, if_pos hp2]]
        rw [show dlookup (p :: rest) f2 = some p.2 by rw [dlookup, if_pos hp2]]
      · rw [show dlookup (p :: List.map (fun p => if p.1 = f then (p.1, c) else p) rest) f2
          = dlookup (List.map (fun p => if p.1 = f then (p.1, c) else p) rest) f2 by
            rw [dlookup, if_neg hp2]]
        rw [show dlookup (p :: rest) f2 = dlookup rest f2 by rw [dlookup, if_neg hp2]]
        exact ih

/-- A written host-variable path `<h>.yml` is never a `.yaml` path. -/
theorem yml_path_ne_yaml_path (h g : String) : ¬ (h ++ ".yml" = g ++ ".yaml") := by
  intro heq
  have hd := congrArg String.data heq
  rw [String.data_append, String.data_append] at hd
  have hr := congrArg List.reverse hd
  simp at hr

theorem clean_host_vars_yaml_untouched (results : List (String × HostRec)) (hv : Dir)
    (g : String) :
    dlookup (clean_host_vars hv results) (g ++ ".yaml") = dlookup hv (g ++ ".yaml") := by
  induction results generalizing hv with
  | nil => rfl
  | cons pr rest ih =>
    rw [clean_host_vars, List.foldl_cons]
    rcases hlk : dlookup hv (pr.1 ++ ".yml") with _ | c
    · exact ih hv
    · rw [show List.foldl (fun dir pr2 => match dlookup dir (pr2.1 ++ ".yml") with
        | none => dir
        | some c2 => updateFile dir (pr2.1 ++ ".yml")
            (writeDoc (cleanDoc pr2.2 (load_yaml_file c2))))
        (updateFile hv (pr.1 ++ ".yml") (writeDoc (cleanDoc pr.2 (load_yaml_file c)))) rest
        = clean_host_vars (updateFile hv (pr.1 ++ ".yml")
            (writeDoc (cleanDoc pr.2 (load_yaml_file c)))) rest from rfl]
      rw [ih _]
      exact dlookup_updateFile_ne _ _ _ _ (yml_path_ne_yaml_path pr.1 g)

theorem filter_eq_singleton_of_dlookup {α : Type} (m : List (String × α)) (k : String)
    (v : α) (hnd : (keysOf m).Nodup) (h : dlookup m k = some v) :
    m.filter (fun p => p.1 = k) = [(k, v)] := by
  induction m with
  | nil => simp [dlookup] at h
  | cons p rest ih =>
    rw [show keysOf (p :: rest) = p.1 :: keysOf rest from rfl, List.nodup_cons] at hnd
    rw [List.filter_cons]
    by_cases hp : p.1 = k
    · rw [if_pos (by simpa using hp)]
      rw [show dlookup (p :: rest) k = some p.2 by rw [dlookup, if_pos hp]] at h
      have hfilt : rest.filter (fun q => q.1 = k) = [] := by
        rw [List.filter_eq_nil_iff]
        intro q hq
        simp only [decide_eq_true_eq]
        intro hqk
        apply hnd.1
        rw [← hp, ← hqk] at *
        exact List.mem_map_of_mem Prod.fst hq
      rw [hfilt]
      have hv2 : p.2 = v := Option.some.inj h
      rw [← hp, ← hv2, Prod.mk.eta]
    · rw [if_neg (by simpa using hp)]
      rw [show dlookup (p :: rest) k = dlookup rest k by rw [dlookup, if_neg hp]] at h
      exact ih hnd.2 h

/-- `host in duplicated_hosts` holds exactly for hosts with more than one
group-membership entry. -/
theorem containsKey_duplicatedHosts (inv : InvState) (h : String) :
    containsKey (duplicatedHosts inv) h = true ↔ 1 < (hostGroups inv h).length := by
  rw [duplicatedHosts, containsKey]
  rw [dlookup_filter _ _ _ (parsedHosts_keys_nodup inv)]
  rcases hlk : dlookup (parsedHosts inv) h with _ | grps
  · rw [hostGroups, dlookupL, hlk]
    simp
  · rw [hostGroups, dlookupL, hlk]
    by_cases hlen : 1 < grps.length
    · simp [hlen]
    · simp [hlen]

/-- The `Duplicated Host` field value for a parsed host. -/
theorem dlookupL_duplicatedHosts (inv : InvState) (h : String) (grps : List String)
    (hlk : dlookup (parsedHosts inv) h = some grps) (hlen : 1 < grps.length) :
    dlookupL (duplicatedHosts inv) h = grps := by
  rw [duplicatedHosts, dlookupL, dlookup_filter _ _ _ (parsedHosts_keys_nodup inv), hlk]
  simp [hlen]

theorem comma_mem_intercalate_go (l : List String) (acc : String)
    (h : ',' ∈ acc.data) : ',' ∈ (String.intercalate.go acc ", " l).data := by
  induction l generalizing acc with
  | nil => exact h
  | cons a rest ih =>
    rw [String.intercalate.go]
    apply ih
    rw [String.data_append, String.data_append]
    exact List.mem_append_left _ (List.mem_append_left _ h)

theorem comma_mem_intercalate (a b : String) (l : List String) :
    ',' ∈ (String.intercalate ", " (a :: b :: l)).data := by
  rw [String.intercalate, String.intercalate.go]
  apply comma_mem_intercalate_go
  rw [String.data_append, String.data_append]
  refine List.mem_append_left _ (List.mem_append_right _ ?_)
  simp [show (", ").data = [',', ' '] from rfl]

/-- Joining at least two group names with `", "` can never produce the
sentinel `"No duplication in groups"`, which contains no comma. -/
theorem intercalate_ne_sentinel (a b : String) (l : List String) :
    ¬ String.intercalate ", " (a :: b :: l) = "No duplication in groups" := by
  intro heq
  have hc := comma_mem_intercalate a b l
  rw [heq] at hc
  have : ¬ (',' ∈ ("No duplication in groups").data) := by decide
  exact this hc

/-! ## Remaining structural helpers -/

theorem mem_orphanedFiles (inv : InvState) (f : String) (c : FileContent)
    (hmem : (f, c) ∈ inv.hostVarsDir) (hYY : endsYY f = true)
    (hnot : splitextStem f ∉ keysOf (parsedHosts inv)) :
    splitextStem f ∈ orphanedFiles inv := by
  rw [orphanedFiles]
  refine List.mem_filter.mpr ⟨?_, ?_⟩
  · refine List.mem_map.mpr ⟨f, ?_, rfl⟩
    refine List.mem_filter.mpr ⟨?_, hYY⟩
    exact List.mem_map_of_mem Prod.fst hmem
  · have hni : ¬ splitextStem f ∈ hostKeys inv := by
      simpa [hostKeys, keysOf] using hnot
    simpa using hni

theorem orphanedFiles_subset_stems (inv : InvState) (h : String)
    (hmem : h ∈ orphanedFiles inv) :
    h ∈ ((inv.hostVarsDir.map Prod.fst).filter endsYY).map splitextStem := by
  rw [orphanedFiles] at hmem
  exact (List.mem_filter.mp hmem).1

theorem hostRecordOf_groups (inv : InvState) (h : String) (grps : List String) :
    (hostRecordOf inv h grps).groups = String.intercalate ", " grps := rfl

theorem hostRecordOf_dupHost (inv : InvState) (h : String) (grps : List String) :
    (hostRecordOf inv h grps).dupHost =
      if containsKey (duplicatedHosts inv) h then
        String.intercalate ", " (dlookupL (duplicatedHosts inv) h)
      else "No duplication in groups" := rfl

theorem hostRecordOf_missingFile (inv : InvState) (h : String) (grps : List String) :
    (hostRecordOf inv h grps).missingFile =
      if h ∈ missingFiles inv then "Yes" else "No" := rfl

theorem hostRecordOf_orphaned (inv : InvState) (h : String) (grps : List String) :
    (hostRecordOf inv h grps).orphaned = "No" := rfl

theorem keepLine_of_pass (results : List (String × HostRec)) (raw : String)
    (h : isPassRaw raw = true) : keepLine results raw = true := by
  rw [keepLine]
  rw [isPassRaw] at h
  simp only [h, if_true]

theorem keepLine_false_iff (results : List (String × HostRec)) (raw : String)
    (h : isPassRaw raw = false) :
    keepLine results raw = false ↔ dropCondition results raw := by
  rw [keepLine, dropCondition]
  rw [isPassRaw] at h
  simp only [h, Bool.false_eq_true, if_false]
  rcases hlk : dlookup results (pyFirstTok (pyStrip raw)) with _ | rec
  · simp [hlk]
  · simp only [hlk]
    by_cases h1 : rec.dupHost = "No duplication in groups"
    · by_cases h2 : rec.missingFile = "Yes"
      · simp [h1, h2]
      · simp [h1, h2]
    · simp [h1]

/-! ## Claim theorems -/

/-- C1, counterexample.  The claim's final conjunct — a membership host whose
identifier has no backing file `<id>.yaml`/`<id>.yml` "never appears in the
report at all" — fails on the code: with a variable file literally named
`.yml` (whose `os.path.splitext` stem is `.yml` itself, by CPython's
leading-dot rule) and a membership line `.yml`, the parser rightly excludes
the host, yet the orphan pass inserts a report record under the very same
identifier `.yml`. -/
theorem C1_counterexample :
    existsHostFile invCE.hostVarsDir ".yml" = false ∧
    parsedHosts invCE = [] ∧ parsedGroups invCE = [("db", [])] ∧
    dlookup (analyze_inventory invCE) ".yml" = some orphanRecord := by decide

/-- C1 (amended): for every host identifier with no backing
`<id>.yaml`/`<id>.yml` file, `parse_hosts_ini` puts it neither in the host
model nor in any group's host list; every record `analyze_inventory` produces
(host or orphan) has its `Missing File in host_vars` field equal to `"No"`;
and such an identifier appears in the report only when it coincides with the
`splitext` stem of some listed variable file (then as an orphan record) —
in particular an identifier that is no file's stem is absent from the report. -/
theorem C1_parser_exclusion (inv : InvState) (h : String)
    (hnof : existsHostFile inv.hostVarsDir h = false) :
    h ∉ keysOf (parsedHosts inv) ∧
    (∀ g l, dlookup (parsedGroups inv) g = some l → h ∉ l) ∧
    (∀ k rec, dlookup (analyze_inventory inv) k = some rec → rec.missingFile = "No") ∧
    (h ∉ ((inv.hostVarsDir.map Prod.fst).filter endsYY).map splitextStem →
      dlookup (analyze_inventory inv) h = none) := by
  have hnokey : h ∉ keysOf (parsedHosts inv) := by
    intro hmem
    rw [parsedHosts_backing inv h hmem] at hnof
    exact Bool.true_eq_false.mp hnof
  refine ⟨hnokey, ?_, ?_, ?_⟩
  · intro g l hl hx
    rw [parsedGroups_backing inv g l hl h hx] at hnof
    exact Bool.true_eq_false.mp hnof
  · intro k rec hrec
    rw [analyze_lookup] at hrec
    by_cases ho : k ∈ orphanedFiles inv
    · rw [if_pos ho] at hrec
      rw [← Option.some.inj hrec]
      rfl
    · rw [if_neg ho] at hrec
      rcases hlk : dlookup (parsedHosts inv) k with _ | grps
      · rw [hlk] at hrec
        exact Option.noConfusion hrec
      · rw [hlk] at hrec
        have hr2 : hostRecordOf inv k grps = rec := Option.some.inj hrec
        rw [← hr2, hostRecordOf_missingFile, missingFiles_eq_nil]
        simp
  · intro hstem
    rw [analyze_lookup]
    rw [if_neg (fun ho => hstem (orphanedFiles_subset_stems inv h ho))]
    rw [(dlookup_eq_none_iff _ _).mpr hnokey]
    rfl

/-- C1, witness: host `phantom` declared under `[db]` with an empty
`host_vars` directory (scenario D of the spec). -/
theorem C1_witness :
    "phantom" ∉ keysOf (parsedHosts invD) ∧
    (∀ g l, dlookup (parsedGroups invD) g = some l → "phantom" ∉ l) ∧
    (∀ k rec, dlookup (analyze_inventory invD) k = some rec → rec.missingFile = "No") ∧
    ("phantom" ∉ ((invD.hostVarsDir.map Prod.fst).filter endsYY).map splitextStem →
      dlookup (analyze_inventory invD) "phantom" = none) :=
  C1_parser_exclusion invD "phantom" (by decide)

/-- C2: the cross-reference engine is all-pairs.  An occurrence
`(group_file, host_stem)` is recorded under key `var` by
`check_duplicate_vars` exactly when some group file and some host file — with
no group-membership scoping whatsoever — both contain `var`; and a conflict
is recorded by `check_inconsistent_values` exactly when additionally the two
values differ, carrying both values. -/
theorem C2_all_pairs_cross_reference :
    (∀ (gv hv : List (String × Ydoc)) (var gf hn : String),
      (gf, hn) ∈ dlookupL (check_duplicate_vars gv hv) var ↔
        ∃ gd hf hd, (gf, gd) ∈ gv ∧ (hf, hd) ∈ hv ∧ hn = splitextStem hf ∧
          containsKey gd var = true ∧ containsKey hd var = true) ∧
    (∀ (gv hv : List (String × Ydoc)) (var : String) (c : Conflict),
      c ∈ dlookupL (check_inconsistent_values gv hv) var ↔
        ∃ gf gd hf hd gval hval, (gf, gd) ∈ gv ∧ (hf, hd) ∈ hv ∧ (var, gval) ∈ gd ∧
          dlookup hd var = some hval ∧ ¬ hval = gval ∧
          c = ⟨gf, splitextStem hf, gval, hval⟩) := by
  constructor
  · intro gv hv var gf hn
    rw [mem_dup_occurrence]
    constructor
    · rintro ⟨gf2, gd, hf, hd, hg, hh, hx, hgd, hhd⟩
      obtain ⟨hgf, hhn⟩ := Prod.mk.injEq .. ▸ hx
      exact ⟨gd, hf, hd, hgf ▸ hg, hh, hhn, hgd, hhd⟩
    · rintro ⟨gd, hf, hd, hg, hh, hhn, hgd, hhd⟩
      exact ⟨gf, gd, hf, hd, hg, hh, by rw [hhn], hgd, hhd⟩
  · intro gv hv var c
    exact mem_incons_occurrence gv hv var c

/-- C3, counterexample.  A key flagged (case-insensitively) can survive the
rewrite: with the original document `{Port: 1, port: 2}` and the flagged
name `port`, the case-insensitive table maps `"port"` to the later key
`port` only, so `Port` — also named case-insensitively by the flag — remains
in the rewritten document. -/
theorem C3_counterexample :
    "port" ∈ flaggedVars recColl ∧ pyLower "Port" = "port" ∧
    cleanDoc recColl docColl = [("Port", YVal.yInt 1)] := by decide

/-- C3 (amended): for a processed document whose keys are pairwise distinct
after lowercasing, the rewrite is exactly a filter: a binding `(k, v)` of the
original survives with its value intact iff `k` is not flagged — where a key
counts as flagged when it is non-empty (Python truthiness skips the empty
key) and its lowercasing is named in the `Duplicated Variables` or
`Inconsistent Variables` field.  In particular every non-flagged key keeps a
deep-equal value and every non-empty flagged key is removed whatever its
original casing. -/
theorem C3_cleanup_roundtrip (rec : HostRec) (d : Ydoc) (hnd : distinctLower d)
    (k : String) (v : YVal) :
    (k, v) ∈ cleanDoc rec d ↔
      (k, v) ∈ d ∧ (k = "" ∨ pyLower k ∉ flaggedVars rec) := by
  rw [cleanDoc_eq_filter rec d hnd, List.mem_filter]
  constructor
  · rintro ⟨hmem, hkeep⟩
    rw [keepKey, keepS] at hkeep
    exact ⟨hmem, of_decide_eq_true hkeep⟩
  · rintro ⟨hmem, hkeep⟩
    exact ⟨hmem, by rw [keepKey, keepS]; exact decide_eq_true hkeep⟩

/-- C3, witness: a collision-free document keeps its unflagged binding. -/
theorem C3_witness :
    distinctLower [("host", YVal.yInt 2)] ∧
    (("host", YVal.yInt 2) ∈ cleanDoc recColl [("host", YVal.yInt 2)] ↔
      (("host", YVal.yInt 2) ∈ [("host", YVal.yInt 2)] ∧
        ("host" = "" ∨ pyLower "host" ∉ flaggedVars recColl))) :=
  ⟨by decide, C3_cleanup_roundtrip recColl [("host", YVal.yInt 2)] (by decide)
    "host" (YVal.yInt 2)⟩

/-- C4, counterexample.  Cleanup is not idempotent: on the host document
`{Port: 1, port: 2}` with flagged name `port`, the first run deletes only
`port` (the case-insensitive table kept the later key), and the second run
deletes the surviving `Port` — the second pass changes the file again. -/
theorem C4_counterexample :
    ¬ clean_inventory (clean_inventory stColl [("h", recColl)]) [("h", recColl)]
      = clean_inventory stColl [("h", recColl)] := by decide

/-- C4 (amended): with distinct file names in `host_vars` (a filesystem
invariant) and every host document free of case-insensitive key collisions,
running `clean_inventory` twice with the same defect record equals running it
once: the membership filter is idempotent, and each file's cleanup chain is
idempotent. -/
theorem C4_cleanup_idempotent (lines : List String) (hv : Dir)
    (results : List (String × HostRec)) (hnd : (keysOf hv).Nodup)
    (hdl : ∀ p ∈ hv, distinctLower (load_yaml_file p.2)) :
    clean_inventory (clean_inventory (lines, hv) results) results
      = clean_inventory (lines, hv) results := by
  rw [show clean_inventory (clean_inventory (lines, hv) results) results
      = (clean_hosts (clean_hosts lines results) results,
         clean_host_vars (clean_host_vars hv results) results) from rfl,
    show clean_inventory (lines, hv) results
      = (clean_hosts lines results, clean_host_vars hv results) from rfl]
  rw [Prod.mk.injEq]
  constructor
  · rw [clean_hosts, clean_hosts, List.filter_filter]
    apply List.filter_congr
    intro raw hraw
    rw [Bool.and_self]
  · have h1 := clean_host_vars_map results hv hnd
    have hnd2 : (keysOf (clean_host_vars hv results)).Nodup := by
      rw [h1, keysOf_map_chain]
      exact hnd
    rw [clean_host_vars_map results _ hnd2, h1, List.map_map]
    apply List.map_congr_left
    intro e he
    simp only [Function.comp_apply]
    rw [cleanChain_idem results e.1 e.2 (hdl e he)]

/-- C4, witness: one collision-free host file, cleaned twice. -/
theorem C4_witness :
    (keysOf hv0).Nodup ∧
    clean_inventory (clean_inventory ([], hv0) [("h", recColl)]) [("h", recColl)]
      = clean_inventory ([], hv0) [("h", recColl)] :=
  ⟨by decide, C4_cleanup_idempotent [] hv0 [("h", recColl)] (by decide) (by decide)⟩

/-- C5: the membership rewrite of `clean_hosts`.  Headers, comments, and
blank lines pass through unchanged; a host line is dropped exactly when the
defect record looked up under the line's first whitespace-delimited token has
a non-sentinel `Duplicated Host` field or `Missing File in host_vars` equal
to `"Yes"`, and is otherwise kept verbatim (inline variable tokens included);
and in scenario A (`[web]`, `web`, `web`, with `host_vars/web.yml` present)
both `web` lines are dropped. -/
theorem C5_membership_rewrite :
    (∀ (results : List (String × HostRec)) (raw : String) (rest : List String),
      isPassRaw raw = true →
        clean_hosts (raw :: rest) results = raw :: clean_hosts rest results) ∧
    (∀ (results : List (String × HostRec)) (raw : String) (rest : List String),
      isPassRaw raw = false → dropCondition results raw →
        clean_hosts (raw :: rest) results = clean_hosts rest results) ∧
    (∀ (results : List (String × HostRec)) (raw : String) (rest : List String),
      isPassRaw raw = false → ¬ dropCondition results raw →
        clean_hosts (raw :: rest) results = raw :: clean_hosts rest results) ∧
    clean_hosts invA.hostsLines (analyze_inventory invA) = ["[web]\n"] := by
  refine ⟨?_, ?_, ?_, by decide⟩
  · intro results raw rest hpass
    rw [clean_hosts, clean_hosts, List.filter_cons, keepLine_of_pass results raw hpass]
    rfl
  · intro results raw rest hpass hdrop
    have hkl : keepLine results raw = false := (keepLine_false_iff results raw hpass).mpr hdrop
    rw [clean_hosts, clean_hosts, List.filter_cons, hkl]
    rfl
  · intro results raw rest hpass hdrop
    have hkl : keepLine results raw = true := by
      rcases hb : keepLine results raw
      · exact absurd ((keepLine_false_iff results raw hpass).mp hb) hdrop
      · rfl
    rw [clean_hosts, clean_hosts, List.filter_cons, hkl]
    rfl

/-- C5, witness: a comment passes through; a flagged host line (with inline
variables) is dropped; an unflagged host line is kept. -/
theorem C5_witness :
    clean_hosts ["# note"] [] = "# note" :: clean_hosts [] [] ∧
    clean_hosts ["web x=1"] [("web", recDrop)] = clean_hosts [] [("web", recDrop)] ∧
    clean_hosts ["db"] [("web", recDrop)] = "db" :: clean_hosts [] [("web", recDrop)] :=
  ⟨C5_membership_rewrite.1 [] "# note" [] (by decide),
   C5_membership_rewrite.2.1 [("web", recDrop)] "web x=1" [] (by decide)
     ⟨recDrop, by decide, Or.inl (by decide)⟩,
   C5_membership_rewrite.2.2.1 [("web", recDrop)] "db" [] (by decide)
     (by
       rintro ⟨rec, hlk, -⟩
       rw [show dlookup [("web", recDrop)] (pyFirstTok (pyStrip "db")) = none from by decide]
         at hlk
       exact Option.noConfusion hlk)⟩

/-- C6: in every report record, the `Duplicated Host` field is non-sentinel
exactly when the host's group-list in the parsed model has length greater
than one (counting every membership appearance, including twice in the same
group), and in that case it is the `", "`-join of exactly those group
occurrences in order.  Orphan records carry the sentinel and an empty
group-list. -/
theorem C6_duplicated_host_field (inv : InvState) (h : String) (rec : HostRec)
    (hrec : dlookup (analyze_inventory inv) h = some rec) :
    (¬ rec.dupHost = "No duplication in groups" ↔ 1 < (hostGroups inv h).length) ∧
    (1 < (hostGroups inv h).length →
      rec.dupHost = String.intercalate ", " (hostGroups inv h)) := by
  rw [analyze_lookup] at hrec
  by_cases ho : h ∈ orphanedFiles inv
  · rw [if_pos ho] at hrec
    have hrec2 : orphanRecord = rec := Option.some.inj hrec
    have hnk := orphanedFiles_not_host inv h ho
    have hnone : dlookup (parsedHosts inv) h = none := (dlookup_eq_none_iff _ _).mpr hnk
    have hg : hostGroups inv h = [] := by
      rw [hostGroups, dlookupL, hnone]
      rfl
    rw [← hrec2, hg]
    exact ⟨⟨fun hne => absurd rfl hne, fun hlen => absurd hlen (by simp)⟩,
      fun hlen => absurd hlen (by simp)⟩
  · rw [if_neg ho] at hrec
    rcases hlk : dlookup (parsedHosts inv) h with _ | grps
    · rw [hlk] at hrec
      exact Option.noConfusion hrec
    · rw [hlk] at hrec
      have hrec2 : hostRecordOf inv h grps = rec := Option.some.inj hrec
      have hg : hostGroups inv h = grps := by
        rw [hostGroups, dlookupL, hlk]
        rfl
      rw [← hrec2, hg, hostRecordOf_dupHost]
      by_cases hlen : 1 < grps.length
      · have hck : containsKey (duplicatedHosts inv) h = true :=
          (containsKey_duplicatedHosts inv h).mpr (by rw [hg]; exact hlen)
        rw [if_pos hck, dlookupL_duplicatedHosts inv h grps hlk hlen]
        rcases grps with _ | ⟨a, rest⟩
        · simp at hlen
        rcases rest with _ | ⟨b, l⟩
        · simp at hlen
        exact ⟨⟨fun _ => hlen, fun _ => intercalate_ne_sentinel a b l⟩, fun _ => rfl⟩
      · have hck : containsKey (duplicatedHosts inv) h = false := by
          rcases hb : containsKey (duplicatedHosts inv) h
          · rfl
          · have hlen2 := (containsKey_duplicatedHosts inv h).mp hb
            rw [hg] at hlen2
            exact absurd hlen2 hlen
        rw [if_neg (by simp [hck])]
        exact ⟨⟨fun hne => absurd rfl hne, fun hl => absurd hl hlen⟩,
          fun hl => absurd hl hlen⟩

/-- C6, witness: in scenario A the host `web` appears twice in `[web]` and
its field joins both occurrences. -/
theorem C6_witness :
    (¬ recWebA.dupHost = "No duplication in groups" ↔ 1 < (hostGroups invA "web").length) ∧
    (1 < (hostGroups invA "web").length →
      recWebA.dupHost = String.intercalate ", " (hostGroups invA "web")) :=
  C6_duplicated_host_field invA "web" recWebA (by decide)

/-- C7: every `.yaml`/`.yml` file of `host_vars` whose `splitext` stem is not
a parsed host yields exactly one report record, keyed by the stem, with
`Groups = "No group assigned"`, `Orphaned Host Var = "Yes"`, and
`Missing File in host_vars = "No"`; and no record of any report ever has the
orphan flag and the missing-file flag set together. -/
theorem C7_orphan_record (inv : InvState) (f : String) (c : FileContent)
    (hmem : (f, c) ∈ inv.hostVarsDir) (hYY : endsYY f = true)
    (hnot : splitextStem f ∉ keysOf (parsedHosts inv)) :
    (analyze_inventory inv).filter (fun p => p.1 = splitextStem f)
        = [(splitextStem f, orphanRecord)] ∧
    orphanRecord.groups = "No group assigned" ∧
    orphanRecord.orphaned = "Yes" ∧ orphanRecord.missingFile = "No" ∧
    (∀ k rec, dlookup (analyze_inventory inv) k = some rec →
      ¬ (rec.orphaned = "Yes" ∧ rec.missingFile = "Yes")) := by
  have ho := mem_orphanedFiles inv f c hmem hYY hnot
  have hlk : dlookup (analyze_inventory inv) (splitextStem f) = some orphanRecord := by
    rw [analyze_lookup, if_pos ho]
  refine ⟨filter_eq_singleton_of_dlookup _ _ _ (analyze_keys_nodup inv) hlk,
    rfl, rfl, rfl, ?_⟩
  intro k rec hrec
  rw [analyze_lookup] at hrec
  by_cases ho2 : k ∈ orphanedFiles inv
  · rw [if_pos ho2] at hrec
    rw [← Option.some.inj hrec]
    rintro ⟨-, hMF⟩
    exact absurd hMF (by decide)
  · rw [if_neg ho2] at hrec
    rcases hlk2 : dlookup (parsedHosts inv) k with _ | grps
    · rw [hlk2] at hrec
      exact Option.noConfusion hrec
    · rw [hlk2] at hrec
      rw [← Option.some.inj hrec]
      rintro ⟨hO, -⟩
      rw [hostRecordOf_orphaned] at hO
      exact absurd hO (by decide)

/-- C7, witness: `host_vars/ghost.yml` with no membership entry (scenario C). -/
theorem C7_witness :
    (analyze_inventory invC).filter (fun p => p.1 = splitextStem "ghost.yml")
        = [(splitextStem "ghost.yml", orphanRecord)] ∧
    orphanRecord.groups = "No group assigned" ∧
    orphanRecord.orphaned = "Yes" ∧ orphanRecord.missingFile = "No" ∧
    (∀ k rec, dlookup (analyze_inventory invC) k = some rec →
      ¬ (rec.orphaned = "Yes" ∧ rec.missingFile = "Yes")) :=
  C7_orphan_record invC "ghost.yml" (FileContent.parsed (some []))
    (by decide) (by decide) (by decide)

/-- C8: `clean_host_vars` probes only `<host>.yml`.  When that file is
absent the host is skipped — the batch result is exactly the result of
processing the remaining hosts, so a missing file is never fatal — and no
file whose name is of the form `<g>.yaml` is ever touched by the whole run
(the `.yaml` extension accepted by analysis is never attempted here). -/
theorem C8_yml_only_cleanup :
    (∀ (hv : Dir) (h : String) (rec : HostRec) (rest : List (String × HostRec)),
      dlookup hv (h ++ ".yml") = none →
        clean_host_vars hv ((h, rec) :: rest) = clean_host_vars hv rest) ∧
    (∀ (hv : Dir) (results : List (String × HostRec)) (g : String),
      dlookup (clean_host_vars hv results) (g ++ ".yaml") = dlookup hv (g ++ ".yaml")) := by
  constructor
  · intro hv h rec rest hnone
    rw [clean_host_vars, List.foldl_cons]
    simp only [hnone]
    rfl
  · intro hv results g
    exact clean_host_vars_yaml_untouched results hv g

/-- C8, witness: host `x` has only `x.yaml` in `host_vars`; the cleanup
skips it (never probing `.yaml`) and leaves `x.yaml` untouched. -/
theorem C8_witness :
    clean_host_vars hvW [("x", recColl)] = clean_host_vars hvW [] ∧
    dlookup (clean_host_vars hvW [("x", recColl)]) ("x" ++ ".yaml")
      = dlookup hvW ("x" ++ ".yaml") :=
  ⟨C8_yml_only_cleanup.1 hvW "x" recColl [] (by decide),
   C8_yml_only_cleanup.2 hvW [("x", recColl)] "x"⟩

/-- C9: the loader is tolerant of malformed files.  Every `.yaml`/`.yml`
file of a loadable directory contributes its entry regardless of any other
file's state; a malformed file's entry is the empty mapping; and every entry
of the loader's output comes from a listed file with the suffix check, so
every file name in the output maps to a usable (possibly empty) mapping. -/
theorem C9_loader_tolerance :
    (∀ (dir : Dir) (f : String) (c : FileContent), (f, c) ∈ dir → endsYY f = true →
      (f, load_yaml_file c) ∈ load_all_vars dir) ∧
    load_yaml_file FileContent.malformed = [] ∧
    (∀ (dir : Dir) (f : String) (d : Ydoc), (f, d) ∈ load_all_vars dir →
      ∃ c, (f, c) ∈ dir ∧ d = load_yaml_file c ∧ endsYY f = true) := by
  refine ⟨?_, rfl, ?_⟩
  · intro dir f c hmem hYY
    rw [load_all_vars]
    exact List.mem_map.mpr ⟨(f, c), List.mem_filter.mpr ⟨hmem, hYY⟩, rfl⟩
  · intro dir f d hmem
    rw [load_all_vars] at hmem
    obtain ⟨p, hp, heq⟩ := List.mem_map.mp hmem
    obtain ⟨hpd, hYY⟩ := List.mem_filter.mp hp
    obtain ⟨h1, h2⟩ := Prod.mk.injEq .. ▸ heq
    refine ⟨p.2, ?_, h2.symm, by rw [← h1]; exact hYY⟩
    rw [← h1, Prod.mk.eta]
    exact hpd

/-- C9, witness: a directory with one malformed file still yields an entry
for it, mapped to the empty document. -/
theorem C9_witness :
    ("bad.yml", load_yaml_file FileContent.malformed) ∈ load_all_vars dirM :=
  C9_loader_tolerance.1 dirM "bad.yml" FileContent.malformed (by decide) (by decide)

/-- C10: `find_duplicates` applies the never-imported `Counter`, so on every
non-empty input it raises `NameError` and it can return normally only on the
empty dictionary; `analyze_inventory` does not use it — its
`duplicated_hosts` derivation is total and holds a host exactly when the
host's group-list length exceeds one. -/
theorem C10_find_duplicates_never_returns :
    (∀ groups : List (String × List String), ¬ groups = [] →
      find_duplicates groups = Except.error "NameError: name Counter is not defined") ∧
    (∀ (groups r : List (String × List String)),
      find_duplicates groups = Except.ok r → groups = [] ∧ r = []) ∧
    (∀ (inv : InvState) (h : String),
      containsKey (duplicatedHosts inv) h = true ↔ 1 < (hostGroups inv h).length) := by
  refine ⟨?_, ?_, ?_⟩
  · intro groups hne
    cases groups with
    | nil => exact absurd rfl hne
    | cons g rest => rfl
  · intro groups r hok
    cases groups with
    | nil => exact ⟨rfl, (Except.ok.inj hok).symm⟩
    | cons g rest => exact Except.noConfusion hok
  · intro inv h
    exact containsKey_duplicatedHosts inv h

/-- C10, witness: one non-empty group dictionary errors; scenario A's `web`
is detected as duplicated via the length rule. -/
theorem C10_witness :
    find_duplicates [("g", ["a"])]
      = Except.error "NameError: name Counter is not defined" ∧
    (containsKey (duplicatedHosts invA) "web" = true ↔ 1 < (hostGroups invA "web").length) :=
  ⟨C10_find_duplicates_never_returns.1 [("g", ["a"])] (by decide),
   C10_find_duplicates_never_returns.2.2 invA "web"⟩
